import Mathlib

/-!
# bismark-passive-server-go: the trace indexer (`index.go`) and the pipeline stages

A shallow embedding of `index.go` (package `bismarkpassive`) together with the
properties of the indexer and of the analytical stages that are checked against it.

Conventions of the embedding.

* A Go pointer field of a protobuf message is an `Option`; dereferencing `nil`
  panics, and a function that may panic returns `Option` with `none` for the panic.
* `SequenceNumber` is a `*int32` whose *identity* is observed by `mergeTraces`
  (it compares the two pointers with `==`), so that pointer is kept as an
  address together with the value stored there.
* The filesystem, the tar reader, gzip and the protobuf codec are external: the
  filesystem is an explicit state, the outcome of every fallible system call is
  read from an environment record.
-/

namespace Bismark

/-! ## Data model -/

/-- A non-nil `*int32`: the address of the cell and the value stored in it.
Two pointers are the same pointer (`==` in Go) when their addresses agree. -/
structure Int32Ptr where
  addr : Nat
  val : Int
deriving DecidableEq, Repr

/-- The fields of the protobuf message `Trace` that `index.go` reads. Every
field is a pointer in the generated Go code; `none` is the nil pointer. -/
structure Trace where
  NodeId : Option String
  AnonymizationSignature : Option String
  ProcessStartTimeMicroseconds : Option Int
  SequenceNumber : Option Int32Ptr
deriving DecidableEq, Repr

/-- The value behind `*trace.SequenceNumber`, `none` when the pointer is nil. -/
def Trace.seq (t : Trace) : Option Int :=
  t.SequenceNumber.map Int32Ptr.val

/-- Go's `p == q` on two `*int32`: pointer identity, not equality of the
values pointed to. -/
def ptrEq : Option Int32Ptr → Option Int32Ptr → Bool
  | none, none => true
  | some p, some q => p.addr == q.addr
  | _, _ => false

/-! ## `sort.Search` and `mergeTraces` -/

/-- The loop of `sort.Search(n, f)`: `for i < j { h := i + (j-i)/2; if !f(h)
{ i = h + 1 } else { j = h } }; return i`. The predicate may panic (`none`).
The first argument bounds the number of iterations. -/
def sortSearchLoop (f : Nat → Option Bool) : Nat → Nat → Nat → Option Nat
  | 0, i, _ => some i
  | fuel + 1, i, j =>
    if i < j then
      let h := i + (j - i) / 2
      match f h with
      | none => none
      | some false => sortSearchLoop f fuel (h + 1) j
      | some true => sortSearchLoop f fuel i h
    else some i

/-- `sort.Search(n, f)`; the interval `[i, j)` shrinks in every iteration, so
`n` iterations are enough. -/
def sortSearch (n : Nat) (f : Nat → Option Bool) : Option Nat :=
  sortSearchLoop f n 0 n

/-- The closure given to `sort.Search` in `mergeTraces`:
`*traces.Trace[i].SequenceNumber >= *trace.SequenceNumber`. -/
def mergePred (existing : List Trace) (trace : Trace) (i : Nat) : Option Bool :=
  match existing[i]? with
  | none => none
  | some e =>
    match e.SequenceNumber, trace.SequenceNumber with
    | some a, some b => some (decide (a.val ≥ b.val))
    | _, _ => none

/-- One iteration of the loop of `mergeTraces`: search, skip the trace when the
element at the search position holds the *same pointer* as sequence number,
otherwise insert the trace at the search position. -/
def mergeStep (existing : List Trace) (trace : Trace) : Option (List Trace) :=
  match sortSearch existing.length (mergePred existing trace) with
  | none => none
  | some i =>
    if i < existing.length ∧
        ptrEq ((existing[i]?).bind Trace.SequenceNumber) trace.SequenceNumber = true then
      some existing
    else
      some (existing.take i ++ trace :: existing.drop i)

/-- The function `mergeTraces(traces, newTraces)`: the final value of `traces.Trace`. -/
def mergeTraces : List Trace → List Trace → Option (List Trace)
  | existing, [] => some existing
  | existing, trace :: rest =>
    match mergeStep existing trace with
    | none => none
    | some merged => mergeTraces merged rest

/-! ## Paths: `path/filepath` and `fmt` -/

/-- The elements of a path between its separators, `[[]]` for the empty path. -/
def splitSlash : List Char → List (List Char)
  | [] => [[]]
  | c :: cs =>
    if c = '/' then [] :: splitSlash cs
    else
      match splitSlash cs with
      | [] => [[c]]
      | x :: xs => (c :: x) :: xs

/-- One path element seen by `filepath.Clean`; the elements kept so far are held
last-first. An empty element and `.` are skipped; `..` removes the last kept
element when there is one that is not itself `..`, is kept at the start of a
relative path and is dropped at the start of a rooted one; any other element
is kept. -/
def cleanStep (rooted : Bool) (kept : List (List Char)) (c : List Char) : List (List Char) :=
  if c = [] ∨ c = ['.'] then kept
  else if c = ['.', '.'] then
    match kept with
    | [] => if rooted then [] else [c]
    | top :: below => if top = ['.', '.'] then c :: top :: below else below
  else c :: kept

/-- The elements of the cleaned path, first to last. -/
def cleanElems (rooted : Bool) (path : List Char) : List (List Char) :=
  ((splitSlash path).foldl (cleanStep rooted) []).reverse

/-- Elements joined with single separators. -/
def joinSlash : List (List Char) → List Char
  | [] => []
  | [x] => x
  | x :: y :: rest => x ++ '/' :: joinSlash (y :: rest)

/-- Whether the path starts with a separator. -/
def isRooted : List Char → Bool
  | c :: _ => c = '/'
  | [] => false

/-- The function `filepath.Clean` on Unix, on the characters of the path: the
shortest equivalent path; `.` for the empty result of a relative path. -/
def cleanChars (path : List Char) : List Char :=
  let rooted := isRooted path
  let body := joinSlash (cleanElems rooted path)
  if rooted then '/' :: body
  else if body = [] then ['.'] else body

/-- The function `filepath.Clean`. -/
def filepathClean (path : String) : String :=
  String.mk (cleanChars path.data)

/-- The function `strings.Join(elems, "/")` on character lists. -/
def joinWithSlash : List String → List Char
  | [] => []
  | [x] => x.data
  | x :: y :: rest => x.data ++ '/' :: joinWithSlash (y :: rest)

/-- The function `filepath.Join`: leading empty elements are ignored, the rest
is joined with separators and cleaned; the empty string when every element is
empty. -/
def filepathJoin : List String → String
  | [] => ""
  | e :: rest =>
    if e = "" then filepathJoin rest
    else String.mk (cleanChars (joinWithSlash (e :: rest)))

/-- The function `filepath.Base`: the last element of the path, after removing
trailing separators; `.` for the empty path and `/` for a path of separators. -/
def filepathBase (path : String) : String :=
  if path = "" then "."
  else
    let stripped := (path.data.reverse.dropWhile (fun c => c = '/'))
    let last := (stripped.takeWhile (fun c => c ≠ '/')).reverse
    if last = [] then "/" else String.mk last

/-- The function `filepath.Dir`: everything up to the last separator, cleaned. -/
def filepathDir (path : String) : String :=
  String.mk (cleanChars (path.data.reverse.dropWhile (fun c => c ≠ '/')).reverse)

/-- The function `indexedChunkPath(indexPath, trace)`. The sequence number is an
`int32` and `/` on it truncates toward zero; `%d` prints a decimal with a
leading `-` for a negative number. Dereferencing an absent `SequenceNumber`,
`NodeId` or `ProcessStartTimeMicroseconds` panics. -/
def indexedChunkPath (indexPath : String) (trace : Trace) : Option String :=
  let signature :=
    match trace.AnonymizationSignature with
    | some s => s
    | none => "unanonymized"
  match trace.SequenceNumber, trace.NodeId, trace.ProcessStartTimeMicroseconds with
  | some sequenceNumber, some nodeId, some start =>
    let chunkingFactor : Int := 1000
    let chunk := Int.tdiv sequenceNumber.val chunkingFactor
    some (filepathJoin [indexPath, "traces", nodeId ++ "-" ++ signature,
      toString start ++ "-" ++ toString chunk])
  | _, _, _ => none

/-- The function `indexedTarballPath(indexPath, tarFile)`. -/
def indexedTarballPath (indexPath : String) (tarFile : String) : String :=
  filepathJoin [indexPath, "tarballs", filepathBase tarFile]

/-! ## Archives: `readTrace` and `readTarFile` -/

/-- Raw bytes of a file or of a tar entry. -/
abbrev Bytes := List Nat

/-- What `tar.Reader.Next` yields before the end of the archive: an entry with
its header name and payload, or a header that does not parse. The end of the
list is `io.EOF`. -/
inductive TarItem where
  | entry (name : String) (payload : Bytes)
  | badHeader (err : String)
deriving DecidableEq, Repr

/-- The external decoders and the outcomes of the fallible system calls of one
run. `ParseTrace` belongs to this package but not to `index.go`; `gzipNewReader`
is `gzip.NewReader` followed by the reads `ParseTrace` makes through it. -/
structure Env where
  gzipNewReader : Bytes → Except String Bytes
  ParseTrace : Bytes → Except String Trace
  glob : String → Option (List String)
  openTar : String → Option (List TarItem)
  marshalOk : List Trace → Bool
  mkdirAllOk : String → Bool
  openFileOk : String → Bool
  writeOk : String → Bool
  symlinkOk : String → Bool

/-- The function `readTrace(zippedReader)`. The address of the sequence number
of the decoded trace is the one `ParseTrace` gives; the code allocates a
fresh cell at every decode, which an environment models by giving different
payloads different addresses. Two entries with the same bytes get the same
address here and different ones in the code, so a run over such an archive
is outside what this function models of pointer identity. -/
def readTrace (env : Env) (zipped : Bytes) : Except String Trace :=
  match env.gzipNewReader zipped with
  | .error err => .error err
  | .ok unzipped => env.ParseTrace unzipped

/-- The assignment `m[key] = value` on a Go map kept as an association list. -/
def mapSet (m : List (String × String)) (key value : String) : List (String × String) :=
  match m with
  | [] => [(key, value)]
  | (k, v) :: rest => if k = key then (k, value) :: rest else (k, v) :: mapSet rest key value

/-- The lookup `m[key]` on a Go map kept as an association list. -/
def mapGet (m : List (String × String)) (key : String) : Option String :=
  match m with
  | [] => none
  | (k, v) :: rest => if k = key then some v else mapGet rest key

/-- The result of `readTarFile`. -/
structure TarResult where
  traces : List Trace
  traceErrors : List (String × String)
  tarErr : Option String
deriving DecidableEq, Repr

/-- The loop of `readTarFile` over what `tr.Next()` yields, from the values of
`traces` and `traceErrors` reached so far. -/
def readTarLoop (env : Env) : List TarItem → List Trace → List (String × String) → TarResult
  | [], traces, traceErrors => ⟨traces, traceErrors, none⟩
  | TarItem.badHeader err :: _, traces, traceErrors => ⟨traces, traceErrors, some err⟩
  | TarItem.entry name payload :: rest, traces, traceErrors =>
    match readTrace env payload with
    | .error err => readTarLoop env rest traces (mapSet traceErrors name err)
    | .ok trace => readTarLoop env rest (traces ++ [trace]) traceErrors

/-- The function `readTarFile(tarReader)`. -/
def readTarFile (env : Env) (items : List TarItem) : TarResult :=
  readTarLoop env items [] []

/-! ## Ordering of traces: `BySequenceNumber` -/

/-- Go's `<` on strings: lexicographic on bytes, which for UTF-8 is
lexicographic on characters. -/
def strLess (a b : String) : Bool :=
  decide (a.data < b.data)

/-- The method `BySequenceNumber.Less(i, j)` on the traces `a = s[i]` and `b = s[j]`.
Fields are dereferenced in the order of the source; `&&` does not evaluate its
right operand when the left one is false. -/
def BySequenceNumber.Less (a b : Trace) : Option Bool :=
  match a.NodeId, b.NodeId with
  | some an, some bn =>
    if strLess an bn then some true
    else if an = bn then
      match a.AnonymizationSignature, b.AnonymizationSignature with
      | some asig, some bsig =>
        if strLess asig bsig then some true
        else if asig = bsig then
          match a.ProcessStartTimeMicroseconds, b.ProcessStartTimeMicroseconds with
          | some ap, some bp =>
            if ap < bp then some true
            else if ap = bp then
              match a.SequenceNumber, b.SequenceNumber with
              | some x, some y => some (decide (x.val < y.val))
              | _, _ => none
            else some false
          | _, _ => none
        else some false
      | _, _ => none
    else some false
  | _, _ => none

/-- The inner loop of the standard library's insertion sort,
`for j := i; j > a && Less(j, j-1); j-- { Swap(j, j-1) }`: the element `x`
moves left past every element it is less than. The sorted prefix is held
last-first. -/
def insertBack (x : Trace) : List Trace → Option (List Trace)
  | [] => some [x]
  | y :: ys =>
    match BySequenceNumber.Less x y with
    | none => none
    | some true => (insertBack x ys).map (fun r => y :: r)
    | some false => some (x :: y :: ys)

/-- The outer loop of the insertion sort; the sorted prefix is held last-first. -/
def sortLoop : List Trace → List Trace → Option (List Trace)
  | sortedRev, [] => some sortedRev.reverse
  | sortedRev, x :: rest =>
    match insertBack x sortedRev with
    | none => none
    | some sortedRev' => sortLoop sortedRev' rest

/-- The call `sort.Sort(BySequenceNumber{traces})`, as the insertion sort the
standard library runs on a short slice (fewer than 8 elements in Go 1.0, at
most 12 today). On a longer slice the library's quicksort returns the same
slice whenever no two traces compare as equal; it may order traces that
compare as equal differently, and it compares other pairs, so on a slice with
absent fields it can panic where this function returns, or the reverse. -/
def sortTraces (traces : List Trace) : Option (List Trace) :=
  sortLoop [] traces

/-- The call `sort.Strings(names)`. -/
def sortStrings (names : List String) : List String :=
  names.insertionSort (fun a b => a.data ≤ b.data)

/-! ## Chunk files: `readTraces` and `writeChunk` -/

/-- What is found at a chunk path. -/
inductive ChunkFile where
  /-- No file: `os.Open` fails. -/
  | missing
  /-- A file that `os.Open` cannot open. -/
  | unopenable
  /-- A file that is not a gzip stream: `gzip.NewReader` fails. -/
  | notGzip
  /-- A gzip stream that breaks off: `ioutil.ReadAll` fails. -/
  | badStream
  /-- A gzip stream of bytes that are no `Traces` message: `proto.Unmarshal` fails. -/
  | notProto
  /-- The gzip-compressed serialization of a `Traces` message with these traces.
  The addresses kept with the traces stand for the cells `proto.Unmarshal`
  allocates when the file is read. -/
  | chunk (traces : List Trace)
deriving DecidableEq, Repr

/-- The part of the filesystem the indexer touches: chunk files by path and
symbolic links by path with their targets. -/
structure FS where
  chunks : String → ChunkFile
  links : String → Option String

/-- The filesystem with the file at `path` replaced. -/
def FS.setChunk (fs : FS) (path : String) (file : ChunkFile) : FS :=
  { fs with chunks := fun p => if p = path then file else fs.chunks p }

/-- The filesystem with a symbolic link created at `path`. -/
def FS.setLink (fs : FS) (path target : String) : FS :=
  { fs with links := fun p => if p = path then some target else fs.links p }

/-- The function `readTraces(chunkPath)`: the decoded message, or nil (`none`)
when the file cannot be opened, decompressed or deserialized. The traces come
back with the addresses the file holds; `proto.Unmarshal` allocates fresh
cells at every read, so a file stands for what one read of it returns, and a
trace read back from a file written earlier in the same run keeps here an
address the code would not keep. -/
def readTraces (fs : FS) (chunkPath : String) : Option (List Trace) :=
  match fs.chunks chunkPath with
  | ChunkFile.chunk traces => some traces
  | _ => none

/-- The second half of `writeChunk`, from `proto.Marshal` on: serialize
`traces`, make the directory, open the file with create and truncate, write.
`os.OpenFile` truncates the file, so a failing write leaves a file that is no
gzip stream. -/
def storeChunk (env : Env) (fs : FS) (chunkPath : String) (traces : List Trace)
    (tracesRead : Nat) : (Bool × Nat) × FS :=
  if env.marshalOk traces = false then ((false, tracesRead), fs)
  else if env.mkdirAllOk (filepathDir chunkPath) = false then ((false, tracesRead), fs)
  else if env.openFileOk chunkPath = false then ((false, tracesRead), fs)
  else if env.writeOk chunkPath = false then
    ((false, tracesRead), fs.setChunk chunkPath ChunkFile.notGzip)
  else ((true, tracesRead), fs.setChunk chunkPath (ChunkFile.chunk traces))

/-- The function `writeChunk(chunkPath, newTraces)`: the pair it returns and the
filesystem it leaves; `none` when `mergeTraces` panics. -/
def writeChunk (env : Env) (fs : FS) (chunkPath : String) (newTraces : List Trace) :
    Option ((Bool × Nat) × FS) :=
  match readTraces fs chunkPath with
  | none => some (storeChunk env fs chunkPath newTraces 0)
  | some existing =>
    match mergeTraces existing newTraces with
    | none => none
    | some traces => some (storeChunk env fs chunkPath traces existing.length)

/-! ## The indexer: `IndexTraces` -/

/-- The exported counters of `IndexTraces`. -/
structure Counters where
  chunksIndexed : Nat := 0
  chunksFailed : Nat := 0
  chunksReread : Nat := 0
  tarsScanned : Nat := 0
  tarsIndexed : Nat := 0
  tarsFailed : Nat := 0
  tarsSkipped : Nat := 0
  tarsInvalidLink : Nat := 0
  tarsLinked : Nat := 0
  tarsLinkFailed : Nat := 0
  tracesIndexed : Nat := 0
  tracesFailed : Nat := 0
  tracesReread : Nat := 0
deriving DecidableEq, Repr

/-- What a run does to the index, in order: a call of `writeChunk` with its
arguments and its first result, and a call of `os.Symlink` with its arguments
and whether it succeeded. -/
inductive Event where
  | wrote (chunkPath : String) (traces : List Trace) (written : Bool)
  | linked (tarFile : String) (symlinkPath : String) (created : Bool)
deriving DecidableEq, Repr

/-- The variables of `IndexTraces` during the second loop, the filesystem, and
the record of the calls made so far. -/
structure IndexState where
  fs : FS
  counters : Counters
  currentChunkPath : Option String
  currentTraces : List Trace
  currentTars : List String
  events : List Event

/-- The loop `for _, tarFile := range currentTars` that installs the markers
after a successful `writeChunk`. `os.Symlink` fails when something exists at
the link path. -/
def installMarkers (env : Env) (indexPath : String) :
    List String → FS → Counters → List Event → FS × Counters × List Event
  | [], fs, c, ev => (fs, c, ev)
  | tarFile :: rest, fs, c, ev =>
    let symlinkPath := indexedTarballPath indexPath tarFile
    let symlinkDir := filepathDir symlinkPath
    let c1 := if env.mkdirAllOk symlinkDir = false then
      { c with tarsLinkFailed := c.tarsLinkFailed + 1 } else c
    let created : Bool := (fs.links symlinkPath).isNone && env.symlinkOk symlinkPath
    let fs1 := if created then fs.setLink symlinkPath tarFile else fs
    let c2 := if created then c1 else { c1 with tarsLinkFailed := c1.tarsLinkFailed + 1 }
    let c3 := { c2 with tarsLinked := c2.tarsLinked + 1 }
    installMarkers env indexPath rest fs1 c3 (ev ++ [Event.linked tarFile symlinkPath created])

/-- The flush of the pending traces, which the source spells out twice (inside
the loop when the chunk path changes, and after the loop): `writeChunk` on the
current chunk path, then the counters and, on success, the markers of the
pending archives. The pending traces and archives are left for the caller to
reset. -/
def flushChunk (env : Env) (indexPath : String) (st : IndexState) (chunkPath : String) :
    Option IndexState :=
  match writeChunk env st.fs chunkPath st.currentTraces with
  | none => none
  | some ((written, tracesRead), fs) =>
    let ev := st.events ++ [Event.wrote chunkPath st.currentTraces written]
    let c := st.counters
    let (fs1, c1, ev1) :=
      if written then
        installMarkers env indexPath st.currentTars fs
          { c with chunksIndexed := c.chunksIndexed + 1,
                   tracesIndexed := c.tracesIndexed + st.currentTraces.length,
                   tarsIndexed := c.tarsIndexed + st.currentTars.length } ev
      else
        (fs, { c with chunksFailed := c.chunksFailed + 1,
                      tarsFailed := c.tarsFailed + st.currentTars.length,
                      tracesFailed := c.tracesFailed + st.currentTraces.length }, ev)
    let c2 := if tracesRead > 0 then
      { c1 with chunksReread := c1.chunksReread + 1,
                tracesReread := c1.tracesReread + tracesRead } else c1
    some { st with fs := fs1, counters := c2, events := ev1 }

/-- The body of `for _, trace := range traces`. -/
def walkTrace (env : Env) (indexPath : String) (st : IndexState) (trace : Trace) :
    Option IndexState :=
  match indexedChunkPath indexPath trace with
  | none => none
  | some chunkPath =>
    let started : Option IndexState :=
      if st.currentChunkPath = none ∨ st.currentChunkPath ≠ some chunkPath then
        let flushed : Option IndexState :=
          match st.currentChunkPath with
          | some current => flushChunk env indexPath st current
          | none => some st
        flushed.map (fun s =>
          { s with currentChunkPath := some chunkPath, currentTraces := [], currentTars := [] })
      else some st
    started.map (fun s => { s with currentTraces := s.currentTraces ++ [trace] })

/-- The loop `for _, trace := range traces`. -/
def walkTraces (env : Env) (indexPath : String) : IndexState → List Trace → Option IndexState
  | st, [] => some st
  | st, trace :: rest =>
    match walkTrace env indexPath st trace with
    | none => none
    | some st1 => walkTraces env indexPath st1 rest

/-- The first loop of `IndexTraces`: the archives without a marker that points
at them, and the counters. -/
def scanTars (indexPath : String) (fs : FS) :
    List String → Counters → List String → Counters × List String
  | [], c, toIndex => (c, toIndex)
  | tarFile :: rest, c, toIndex =>
    let c1 := { c with tarsScanned := c.tarsScanned + 1 }
    match fs.links (indexedTarballPath indexPath tarFile) with
    | some linkDestination =>
      if linkDestination = tarFile then
        scanTars indexPath fs rest { c1 with tarsSkipped := c1.tarsSkipped + 1 } toIndex
      else
        scanTars indexPath fs rest { c1 with tarsInvalidLink := c1.tarsInvalidLink + 1 }
          (toIndex ++ [tarFile])
    | none => scanTars indexPath fs rest c1 (toIndex ++ [tarFile])

/-- The body of the second loop of `IndexTraces`, `for _, tarFile := range
tarFilesToIndex`. -/
def indexTar (env : Env) (indexPath : String) (st : IndexState) (tarFile : String) :
    Option IndexState :=
  let c := st.counters
  let link := st.fs.links (indexedTarballPath indexPath tarFile)
  if link = some tarFile then
    some { st with counters := { c with tarsSkipped := c.tarsSkipped + 1 } }
  else
    let c1 := if link.isSome then { c with tarsInvalidLink := c.tarsInvalidLink + 1 } else c
    match env.openTar tarFile with
    | none => some { st with counters := { c1 with tarsFailed := c1.tarsFailed + 1 } }
    | some items =>
      let r := readTarFile env items
      if r.tarErr.isSome then
        some { st with counters := { c1 with tarsFailed := c1.tarsFailed + 1 } }
      else
        let c2 := { c1 with tracesFailed := c1.tracesFailed + r.traceErrors.length }
        match sortTraces r.traces with
        | none => none
        | some sorted =>
          match walkTraces env indexPath { st with counters := c2 } sorted with
          | none => none
          | some st1 => some { st1 with currentTars := st1.currentTars ++ [tarFile] }

/-- The second loop of `IndexTraces`. -/
def indexTars (env : Env) (indexPath : String) : IndexState → List String → Option IndexState
  | st, [] => some st
  | st, tarFile :: rest =>
    match indexTar env indexPath st tarFile with
    | none => none
    | some st1 => indexTars env indexPath st1 rest

/-- The function `IndexTraces(tarsPath, indexPath)` on the filesystem `fs`,
without its logging: the final state, `none` when the run panics. When
`filepath.Glob` fails nothing is done. -/
def IndexTraces (env : Env) (fs : FS) (tarsPath indexPath : String) : Option IndexState :=
  let start : IndexState := ⟨fs, {}, none, [], [], []⟩
  match env.glob (filepathJoin [tarsPath, "*.tar"]) with
  | none => some start
  | some tarFiles =>
    let (c, tarFilesToIndex) := scanTars indexPath fs tarFiles {} []
    match indexTars env indexPath { start with counters := c } (sortStrings tarFilesToIndex) with
    | none => none
    | some st =>
      if st.currentTraces.length > 0 then
        match st.currentChunkPath with
        | some current => flushChunk env indexPath st current
        | none => none
      else some st

/-! ## Predicates and functions used to state the properties -/

/-- The trace an archive item contributes: that of an entry whose payload decodes. -/
def decodedTrace (env : Env) : TarItem → Option Trace
  | TarItem.entry _ payload =>
    match readTrace env payload with
    | .ok trace => some trace
    | .error _ => none
  | TarItem.badHeader _ => none

/-- The sequence number of a trace, `0` standing in for an absent one. -/
def seqVal (t : Trace) : Int :=
  match t.SequenceNumber with
  | some p => p.val
  | none => 0

/-- Every trace of the list has a sequence number. -/
def AllSeqPresent (l : List Trace) : Prop :=
  ∀ t ∈ l, t.SequenceNumber.isSome = true

/-- The list is ascending by `sequence_number`: no trace is followed by one with
a smaller sequence number. -/
def AscendingBySeq (l : List Trace) : Prop :=
  l.Pairwise (fun a b => seqVal a ≤ seqVal b)

/-- The decimal digits. -/
def isDecDigit (c : Char) : Prop :=
  c ∈ ['0', '1', '2', '3', '4', '5', '6', '7', '8', '9']

/-- The number a list of decimal digits denotes. -/
def natOfDigits (cs : List Char) : Nat :=
  cs.foldl (fun acc c => 10 * acc + (c.toNat - 48)) 0

/-- The shape of a `%d` of an integer: an optional `-` and then at least one digit. -/
def IsDecimal (s : List Char) : Prop :=
  ∃ pre, (s = pre ∨ s = '-' :: pre) ∧ pre ≠ [] ∧ ∀ c ∈ pre, isDecDigit c

/-- The integer a decimal denotes. -/
def intOfChars : List Char → Int
  | '-' :: pre => - (natOfDigits pre : Int)
  | pre => (natOfDigits pre : Int)

/-- A path element that `filepath.Clean` keeps as it is: it holds no
separator and is not empty, `.` or `..`. -/
def PlainElem (g : List Char) : Prop :=
  '/' ∉ g ∧ g ≠ [] ∧ g ≠ ['.'] ∧ g ≠ ['.', '.']

/-- What `filepath.Clean` makes of the part of a path before a plain element
that follows it, the separator between them included. -/
def cleanPrefix (path : List Char) : List Char :=
  if cleanElems (isRooted path) path = [] then (if isRooted path then ['/'] else [])
  else cleanChars path ++ ['/']

/-- The cleaned index root with its separator, as it starts every chunk path:
nothing for the empty root. -/
def rootPrefix (indexPath : String) : List Char :=
  if indexPath = "" then [] else cleanPrefix indexPath.data

/-- The ChunkId of the data model: node, signature with its default, process
start and sequence bucket. -/
structure ChunkId where
  node : String
  signature : String
  processStart : Int
  bucket : Int
deriving DecidableEq, Repr

/-- The ChunkId of a trace that has a node id, a process start time and a
sequence number; the bucket is the sequence number divided by 1000 the way Go
divides an `int32`. -/
def chunkId (t : Trace) : Option ChunkId :=
  match t.NodeId, t.ProcessStartTimeMicroseconds, t.SequenceNumber with
  | some n, some p, some s =>
    some ⟨n, t.AnonymizationSignature.getD "unanonymized", p, Int.tdiv s.val 1000⟩
  | _, _, _ => none

/-- The traces `IndexTraces` decodes from an archive. -/
def archiveTraces (env : Env) (tarFile : String) : List Trace :=
  match env.openTar tarFile with
  | some items => (readTarFile env items).traces
  | none => []

/-- The marker invariant on the calls of a run: whenever a marker is created
for an archive, every `writeChunk` call of the run that was given one of that
archive's traces has returned success. -/
def MarkerInvariant (env : Env) (events : List Event) : Prop :=
  ∀ tarFile symlinkPath, Event.linked tarFile symlinkPath true ∈ events →
    ∀ chunkPath traces written, Event.wrote chunkPath traces written ∈ events →
      (∃ t ∈ traces, t ∈ archiveTraces env tarFile) → written = true

/-! ## Concrete inputs -/

/-- A trace of node `node` with signature `sig` and process start 0 whose
sequence number `v` is stored at address `a`. -/
def traceAt (a : Nat) (v : Int) : Trace :=
  ⟨some "node", some "sig", some 0, some ⟨a, v⟩⟩

/-- A decoder for two-byte payloads: the address of the sequence number and its
value. -/
def demoParse : Bytes → Except String Trace
  | [a, v] => .ok (traceAt a v)
  | _ => .error "bad trace"

/-- An environment with one archive `/tars/a.tar` of two traces, sequence
numbers 1000 and 0, in which every system call succeeds. -/
def demoEnv : Env where
  gzipNewReader := fun b => .ok b
  ParseTrace := demoParse
  glob := fun _ => some ["/tars/a.tar"]
  openTar := fun p =>
    if p = "/tars/a.tar" then
      some [TarItem.entry "t1" [2, 1000], TarItem.entry "t0" [1, 0]]
    else none
  marshalOk := fun _ => true
  mkdirAllOk := fun _ => true
  openFileOk := fun _ => true
  writeOk := fun _ => true
  symlinkOk := fun _ => true

/-- The environment `demoEnv` in which the chunk file of bucket 0 cannot be
opened for writing. -/
def failingOpenEnv : Env :=
  { demoEnv with openFileOk := fun p => decide (p ≠ "/idx/traces/node-sig/0-0") }

/-- A filesystem without links whose only file is one at the chunk path of
bucket 0 that the indexer may not open. -/
def lockedChunkFS : FS :=
  ⟨fun p => if p = "/idx/traces/node-sig/0-0" then ChunkFile.unopenable else ChunkFile.missing,
   fun _ => none⟩

/-- A filesystem without chunk files and without links. -/
def emptyFS : FS :=
  ⟨fun _ => ChunkFile.missing, fun _ => none⟩

/-! ## Pipeline stages -/

/-- The key of the traces store in decoded form. The store orders its records
by the encoded keys, and the encoding is chosen so that this is the order of
the tuples `(node_id, anonymization_context, session_id, sequence_number)`. -/
structure TraceKey where
  NodeId : String
  AnonymizationContext : String
  SessionId : Int
  SequenceNumber : Int
deriving DecidableEq, Repr

/-- A record of a store, `transformer.LevelDbRecord`, with its key decoded. -/
structure Record where
  Key : TraceKey
  Value : Bytes
deriving DecidableEq, Repr

/-- The order of the encoded keys: the lexicographic order of the tuples. -/
def TraceKey.less (a b : TraceKey) : Bool :=
  decide (a.NodeId.data < b.NodeId.data) ||
  (a.NodeId == b.NodeId &&
    (decide (a.AnonymizationContext.data < b.AnonymizationContext.data) ||
    (a.AnonymizationContext == b.AnonymizationContext &&
      (decide (a.SessionId < b.SessionId) ||
      (a.SessionId == b.SessionId && decide (a.SequenceNumber < b.SequenceNumber))))))

/-- The records of a store are in ascending key order. -/
def AscendingKeys (records : List Record) : Prop :=
  records.Pairwise (fun a b => TraceKey.less a.Key b.Key = true)

/-- Modelled from the spec: the stage `IncludeNodes(records, nodes...)`, whose
source (`datastores.go` of package `passive`) is not in the repository
snapshot; only its examples in `datastores_test.go` are. The stage reads the
input store record by record in key order and emits a record when the node
id decoded from its key is one of the permitted node ids. -/
def IncludeNodes : List Record → List String → List Record
  | [], _ => []
  | record :: rest, nodes =>
    if record.Key.NodeId ∈ nodes then record :: IncludeNodes rest nodes
    else IncludeNodes rest nodes

/-- The function `makeRecordToInclude(nodeId, sequenceNumber)` of
`datastores_test.go`. -/
def makeRecordToInclude (nodeId : String) (sequenceNumber : Int) : Record :=
  ⟨⟨nodeId, "context", 0, sequenceNumber⟩, []⟩

/-- The input store of `ExampleIncludeNodes`. -/
def exampleIncludeNodesInput : List Record :=
  [makeRecordToInclude "node1" 1, makeRecordToInclude "node1" 2,
   makeRecordToInclude "node2" 3, makeRecordToInclude "node2" 4,
   makeRecordToInclude "node2" 5, makeRecordToInclude "node3" 6]

/-- The input store of `ExampleIncludeNodes_multipleNodes`. -/
def exampleMultipleNodesInput : List Record :=
  [makeRecordToInclude "node1" 1, makeRecordToInclude "node1" 2,
   makeRecordToInclude "node2" 3, makeRecordToInclude "node2" 4,
   makeRecordToInclude "node2" 5, makeRecordToInclude "node3" 6,
   makeRecordToInclude "node3" 7, makeRecordToInclude "node4" 8,
   makeRecordToInclude "node4" 9, makeRecordToInclude "node5" 10,
   makeRecordToInclude "node6" 11, makeRecordToInclude "node7" 12]

/-- A record of the session-ranges store: the key holds the first sequence
number of the range, the value the last one, both as encoded trace keys. -/
structure RangeRecord where
  Key : TraceKey
  Value : TraceKey
deriving DecidableEq, Repr

/-- Whether a trace key lies in a range of its own session. -/
def inRange (k : TraceKey) (g : RangeRecord) : Bool :=
  k.NodeId == g.Key.NodeId && k.AnonymizationContext == g.Key.AnonymizationContext &&
    k.SessionId == g.Key.SessionId &&
    decide (g.Key.SequenceNumber ≤ k.SequenceNumber) &&
    decide (k.SequenceNumber ≤ g.Value.SequenceNumber)

/-- Modelled from the spec: the records that section 4.5 says `FilterSessions`
emits for the window `[startSecs, endSecs)`, whose source (`filtertraces.go` of
package `passive`) is not in the repository snapshot: the trace records whose
session id lies in `[startSecs * 1000000, endSecs * 1000000)` and whose
sequence number lies in a range of their session, in input order. -/
def filterSessionsStated (startSecs endSecs : Int) (traces : List Record)
    (ranges : List RangeRecord) : List Record :=
  traces.filter (fun r =>
    decide (startSecs * 1000000 ≤ r.Key.SessionId) &&
    decide (r.Key.SessionId < endSecs * 1000000) &&
    ranges.any (fun g => inRange r.Key g))

/-- The function `makeSessionRecord` of `filtertraces_test.go`. -/
def makeSessionRecord (nodeId : String) (sessionId sequenceNumber : Int) : Record :=
  ⟨⟨nodeId, "context", sessionId, sequenceNumber⟩, []⟩

/-- The function `makeRangeRecord` of `filtertraces_test.go`. -/
def makeRangeRecord (nodeId : String) (sessionId first last : Int) : RangeRecord :=
  ⟨⟨nodeId, "context", sessionId, first⟩, ⟨nodeId, "context", sessionId, last⟩⟩

/-- The session-ranges store of `ExampleFilterSessions`. -/
def exampleRanges : List RangeRecord :=
  [makeRangeRecord "node" (30 * 1000000) 0 2, makeRangeRecord "node" (31 * 1000000) 0 1,
   makeRangeRecord "node" (100 * 1000000) 0 10, makeRangeRecord "node" (200 * 1000000) 2 8]

/-- The traces store of `ExampleFilterSessions`. -/
def exampleSessionTraces : List Record :=
  [makeSessionRecord "node" (30 * 1000000) 1, makeSessionRecord "node" (31 * 1000000) 3,
   makeSessionRecord "node" (100 * 1000000) 2, makeSessionRecord "node" (200 * 1000000) 3]

/-- The output `ExampleFilterSessions` expects for the window `[80, 120)`. -/
def exampleFilteredOutput : List Record :=
  [makeSessionRecord "node" 30000000 1, makeSessionRecord "node" 100000000 2]

/-! ## The order of `BySequenceNumber` -/

/-- The tuples `(node_id, anonymization_signature,
process_start_time_microseconds, sequence_number)` in lexicographic order. -/
abbrev SortKey := Lex (String × Lex (String × Lex (Int × Int)))

/-- The tuple of a trace that has all four fields. -/
def sortKey (t : Trace) : Option SortKey :=
  match t.NodeId, t.AnonymizationSignature, t.ProcessStartTimeMicroseconds,
      t.SequenceNumber with
  | some n, some s, some p, some q => some (toLex (n, toLex (s, toLex (p, q.val))))
  | _, _, _, _ => none

/-! ## Further concrete inputs -/

/-- An environment with two archives, `/tars/a.tar` holding one trace with
sequence number 5 and `/tars/b.tar` holding one trace of the same node,
signature and process start with sequence number 3, in which every system
call succeeds. -/
def twoArchiveEnv : Env :=
  { demoEnv with
    glob := fun _ => some ["/tars/a.tar", "/tars/b.tar"],
    openTar := fun p =>
      if p = "/tars/a.tar" then some [TarItem.entry "t5" [1, 5]]
      else if p = "/tars/b.tar" then some [TarItem.entry "t3" [2, 3]]
      else none }

/-- A filesystem without chunk files in which the marker of `/tars/a.tar`
exists and points at another path. -/
def staleLinkFS : FS :=
  ⟨fun _ => ChunkFile.missing,
   fun p => if p = "/idx/tarballs/a.tar" then some "/old/a.tar" else none⟩

/-! ## The pipeline `LookupsPerDevice` -/

/-- A DNS A record of a trace. -/
structure DnsARecord where
  AddressId : Int
  Anonymized : Bool
  Domain : String
deriving DecidableEq, Repr

/-- A DNS CNAME record of a trace. -/
structure DnsCnameRecord where
  AddressId : Int
  DomainAnonymized : Bool
  Domain : String
  CnameAnonymized : Bool
  Cname : String
deriving DecidableEq, Repr

/-- The payload of a trace that the pipeline reads. -/
structure DnsTrace where
  ARecord : List DnsARecord
  CnameRecord : List DnsCnameRecord
deriving DecidableEq, Repr

/-- The key of the address table, decoded. -/
structure AddressKey where
  NodeId : String
  AnonymizationContext : String
  SessionId : Int
  SequenceNumber : Int
  AddressId : Int
deriving DecidableEq, Repr

/-- A resolved lookup: the node, the device, the name and the hour bucket. -/
structure Lookup where
  node : String
  mac : String
  domain : String
  hour : Int
deriving DecidableEq, Repr

/-- Modelled from the spec: the lookup events of an A record (section 4.6,
step 1), address id and name: its domain unless the record is anonymized. -/
def aRecordEvents (r : DnsARecord) : List (Int × String) :=
  if r.Anonymized then [] else [(r.AddressId, r.Domain)]

/-- Modelled from the spec: the lookup events of a CNAME record (section 4.6,
step 1): its domain unless that is anonymized, and its cname unless that is
anonymized. -/
def cnameRecordEvents (r : DnsCnameRecord) : List (Int × String) :=
  (if r.DomainAnonymized then [] else [(r.AddressId, r.Domain)]) ++
    (if r.CnameAnonymized then [] else [(r.AddressId, r.Cname)])

/-- Modelled from the spec: the lookup events of a trace (section 4.6, step 1),
A records first. -/
def lookupEvents (t : DnsTrace) : List (Int × String) :=
  t.ARecord.flatMap aRecordEvents ++ t.CnameRecord.flatMap cnameRecordEvents

/-- Modelled from the spec: the lookups of one trace record (section 4.6, steps
1 to 3): none outside the consistent ranges; inside, one for every event
whose name is kept and whose address id resolves to a device. -/
def traceLookups (resolve : TraceKey → Int → Option String) (hour : TraceKey → Int)
    (keep : String → Bool) (ranges : List RangeRecord) (record : TraceKey × DnsTrace) :
    List Lookup :=
  if ranges.any (fun g => inRange record.1 g) then
    (lookupEvents record.2).filterMap (fun e =>
      if keep e.2 then (resolve record.1 e.1).map (fun mac => ⟨record.1.NodeId, mac, e.2, hour record.1⟩)
      else none)
  else []

/-- One more occurrence of `key` in a list of counts kept in ascending key
order. -/
def addCount {K : Type} [DecidableEq K] (less : K → K → Bool) (key : K) :
    List (K × Int) → List (K × Int)
  | [] => [(key, 1)]
  | (k, n) :: rest =>
    if k = key then (k, n + 1) :: rest
    else if less key k then (key, 1) :: (k, n) :: rest
    else (k, n) :: addCount less key rest

/-- The number of occurrences of every key, in ascending key order. -/
def countKeys {K : Type} [DecidableEq K] (less : K → K → Bool) (keys : List K) :
    List (K × Int) :=
  keys.foldl (fun counts key => addCount less key counts) []

/-- The order of the keys `(node_id, mac_address, domain)`. -/
def deviceKeyLess (a b : String × String × String) : Bool :=
  decide (a.1.data < b.1.data) ||
  (a.1 == b.1 && (decide (a.2.1.data < b.2.1.data) ||
    (a.2.1 == b.2.1 && decide (a.2.2.data < b.2.2.data))))

/-- The order of the keys `(node_id, mac_address, domain, hour_timestamp_secs)`. -/
def hourKeyLess (a b : String × String × String × Int) : Bool :=
  decide (a.1.data < b.1.data) ||
  (a.1 == b.1 && (decide (a.2.1.data < b.2.1.data) ||
    (a.2.1 == b.2.1 && (decide (a.2.2.1.data < b.2.2.1.data) ||
      (a.2.2.1 == b.2.2.1 && decide (a.2.2.2 < b.2.2.2))))))

/-- The two output stores of the pipeline. -/
structure LookupCounts where
  lookupsPerDevice : List ((String × String × String) × Int)
  lookupsPerDevicePerHour : List ((String × String × String × Int) × Int)
deriving DecidableEq, Repr

/-- Modelled from the spec: the pipeline `LookupsPerDevice` of section 4.6,
whose source (`lookupsperdevice.go` of package `passive`) is not in the
repository snapshot; only its examples in `lookupsperdevice_test.go` are. For
each trace inside a consistent range the lookup events are enumerated, each
retained event is resolved to a device, and the events are counted by
`(node_id, mac_address, domain)` and by `(node_id, mac_address, domain,
hour_timestamp_secs)`, both emitted in ascending key order. How an address id
resolves, which hour an event falls in and which names are counted at all
are arguments: the examples show other rules for them than section 4.6
states. -/
def lookupsPipeline (resolve : TraceKey → Int → Option String) (hour : TraceKey → Int)
    (keep : String → Bool) (ranges : List RangeRecord)
    (traces : List (TraceKey × DnsTrace)) : LookupCounts :=
  let lookups := traces.flatMap (traceLookups resolve hour keep ranges)
  ⟨countKeys deviceKeyLess (lookups.map (fun l => (l.node, l.mac, l.domain))),
   countKeys hourKeyLess (lookups.map (fun l => (l.node, l.mac, l.domain, l.hour)))⟩

/-- Modelled from the spec: the address resolution of section 4.6, step 2: the
entry of the address table under `(node_id, context, session_id,
sequence_number, address_id)` with the trace's own sequence number. -/
def resolveExact (table : List (AddressKey × String)) (k : TraceKey) (addressId : Int) :
    Option String :=
  (table.find? (fun entry =>
    entry.1 == ⟨k.NodeId, k.AnonymizationContext, k.SessionId, k.SequenceNumber, addressId⟩)).map
    Prod.snd

/-- Modelled from the spec: the hour bucket of section 4.6, step 3,
`floor(session_id_microseconds / 1000000 / 3600) * 3600`. -/
def hourOfSession (k : TraceKey) : Int :=
  k.SessionId / 1000000 / 3600 * 3600

/-- Modelled from the spec: the pipeline `LookupsPerDevice` with the address
resolution and the hour bucket of section 4.6 and every name counted. -/
def LookupsPerDevice (traces : List (TraceKey × DnsTrace)) (ranges : List RangeRecord)
    (table : List (AddressKey × String)) : LookupCounts :=
  lookupsPipeline (resolveExact table) hourOfSession (fun _ => true) ranges traces

/-- A trace without the names that are anonymized: the anonymized A records
are removed, a CNAME record with both names anonymized is removed, and an
anonymized name of a remaining CNAME record is blanked. -/
def redact (t : DnsTrace) : DnsTrace :=
  ⟨t.ARecord.filter (fun r => !r.Anonymized),
   (t.CnameRecord.filter (fun r => !(r.DomainAnonymized && r.CnameAnonymized))).map (fun r =>
     { r with Domain := if r.DomainAnonymized then "" else r.Domain,
              Cname := if r.CnameAnonymized then "" else r.Cname })⟩

/-- Whether a name occurs in the trace as a name that is not anonymized. -/
def NamedOpenly (t : DnsTrace) (domain : String) : Prop :=
  (∃ r ∈ t.ARecord, r.Anonymized = false ∧ r.Domain = domain) ∨
  (∃ r ∈ t.CnameRecord, (r.DomainAnonymized = false ∧ r.Domain = domain) ∨
    (r.CnameAnonymized = false ∧ r.Cname = domain))

/-- Every name of the trace is anonymized. -/
def AllAnonymized (t : DnsTrace) : Prop :=
  (∀ r ∈ t.ARecord, r.Anonymized = true) ∧
  (∀ r ∈ t.CnameRecord, r.DomainAnonymized = true ∧ r.CnameAnonymized = true)

/-- The trace of `ExampleLookupsPerDevice_anonymization`. -/
def exampleAnonymizedTrace : DnsTrace :=
  ⟨[⟨0, true, "m.domain"⟩], [⟨0, true, "m.domain1", true, "m.domain2"⟩]⟩

/-- The trace of `ExampleLookupsPerDevice_oneCname`. -/
def exampleCnameTrace : DnsTrace :=
  ⟨[], [⟨0, false, "m.domain1", false, "m.domain2"⟩]⟩

/-! ## The traces of a run -/

/-- The traces handed to the `writeChunk` calls of a run, in the order of the
calls. -/
def writtenTraces : List Event → List Trace
  | [] => []
  | Event.wrote _ traces _ :: rest => traces ++ writtenTraces rest
  | Event.linked _ _ _ :: rest => writtenTraces rest

/-- The traces the second loop of `IndexTraces` decodes from an archive when it
reaches it in state `st`: none when the archive is skipped, cannot be opened
or ends in an archive error, otherwise the traces `readTarFile` returns. -/
def decodedOf (env : Env) (indexPath : String) (st : IndexState) (tarFile : String) :
    List Trace :=
  if st.fs.links (indexedTarballPath indexPath tarFile) = some tarFile then []
  else
    match env.openTar tarFile with
    | none => []
    | some items =>
      if (readTarFile env items).tarErr.isSome then [] else (readTarFile env items).traces

/-- The traces decoded in the second loop of `IndexTraces` over the given
archives, archive by archive. -/
def decodedInRun (env : Env) (indexPath : String) : IndexState → List String → List Trace
  | _, [] => []
  | st, tarFile :: rest =>
    decodedOf env indexPath st tarFile ++
      match indexTar env indexPath st tarFile with
      | some st1 => decodedInRun env indexPath st1 rest
      | none => []

/-- The successfully decoded traces of the archives that a run of
`IndexTraces` reads without an archive error. -/
def decodedByRun (env : Env) (fs : FS) (tarsPath indexPath : String) : List Trace :=
  match env.glob (filepathJoin [tarsPath, "*.tar"]) with
  | none => []
  | some tarFiles =>
    decodedInRun env indexPath
      ⟨fs, (scanTars indexPath fs tarFiles {} []).1, none, [], [], []⟩
      (sortStrings (scanTars indexPath fs tarFiles {} []).2)

/-- All pending traces have the current chunk path. -/
def PendingAtPath (indexPath : String) (st : IndexState) : Prop :=
  ∀ t ∈ st.currentTraces, ∃ p, st.currentChunkPath = some p ∧
    indexedChunkPath indexPath t = some p

/-- Every `writeChunk` call was given traces of its own chunk path. -/
def WrittenAtPath (indexPath : String) (events : List Event) : Prop :=
  ∀ chunkPath traces written, Event.wrote chunkPath traces written ∈ events →
    ∀ t ∈ traces, indexedChunkPath indexPath t = some chunkPath

/-- The trace has a node id, a signature, a process start time and a sequence
number. -/
def Keyed (t : Trace) : Prop :=
  (sortKey t).isSome = true

/-- Every chunk file that can be read holds traces with sequence numbers. -/
def ChunksWellFormed (fs : FS) : Prop :=
  ∀ p ts, fs.chunks p = ChunkFile.chunk ts → AllSeqPresent ts

/-- The environment `demoEnv` in which the write to a chunk file fails after
the file is opened. -/
def failingWriteEnv : Env :=
  { demoEnv with writeOk := fun _ => false }

/-- A trace of node `node` with process start 0 and no anonymization
signature whose sequence number `v` is stored at address `a`. -/
def unsignedAt (a : Nat) (v : Int) : Trace :=
  ⟨some "node", none, some 0, some ⟨a, v⟩⟩

/-- A decoder for two-byte payloads of traces without a signature. -/
def unsignedParse : Bytes → Except String Trace
  | [a, v] => .ok (unsignedAt a v)
  | _ => .error "bad trace"

/-- An environment with one archive `/tars/a.tar` of two traces without a
signature, sequence numbers 0 and 1, in which every system call succeeds. -/
def unsignedEnv : Env :=
  { demoEnv with
    ParseTrace := unsignedParse,
    openTar := fun p =>
      if p = "/tars/a.tar" then
        some [TarItem.entry "t0" [1, 0], TarItem.entry "t1" [2, 1]]
      else none }

/-! ## Auxiliary lemmas -/

theorem mapGet_mapSet (m : List (String × String)) (k v k' : String) :
    mapGet (mapSet m k v) k' = if k' = k then some v else mapGet m k' := by
  induction m with
  | nil =>
    by_cases h : k' = k
    · simp [mapSet, mapGet, h]
    · have h' : ¬ k = k' := fun e => h e.symm
      simp [mapSet, mapGet, h, h']
  | cons kv rest ih =>
    obtain ⟨a, b⟩ := kv
    by_cases hak : a = k
    · by_cases h : k' = k
      · simp [mapSet, mapGet, hak, h]
      · have h' : ¬ k = k' := fun e => h e.symm
        simp [mapSet, mapGet, hak, h, h']
    · by_cases hak' : a = k'
      · have h : ¬ k' = k := fun e => hak (hak'.trans e)
        simp [mapSet, mapGet, hak, hak', h]
      · simp [mapSet, mapGet, hak, hak', ih]

theorem readTarLoop_spec (env : Env) (items : List TarItem)
    (h : ∀ it ∈ items, ∃ n p, it = TarItem.entry n p) :
    ∀ (traces : List Trace) (errs : List (String × String)),
      (readTarLoop env items traces errs).tarErr = none ∧
      (readTarLoop env items traces errs).traces = traces ++ items.filterMap (decodedTrace env) ∧
      ∀ name, (mapGet (readTarLoop env items traces errs).traceErrors name).isSome = true ↔
        ((mapGet errs name).isSome = true ∨
          ∃ payload err, TarItem.entry name payload ∈ items ∧
            readTrace env payload = Except.error err) := by
  induction items with
  | nil => intro traces errs; simp [readTarLoop]
  | cons it rest ih =>
    intro traces errs
    have hrest : ∀ it ∈ rest, ∃ n p, it = TarItem.entry n p :=
      fun x hx => h x (List.mem_cons_of_mem _ hx)
    obtain ⟨n, p, rfl⟩ := h it (List.mem_cons_self _ _)
    cases hr : readTrace env p with
    | error err =>
      obtain ⟨h1, h2, h3⟩ := ih hrest traces (mapSet errs n err)
      refine ⟨by simpa [readTarLoop, hr] using h1, ?_, ?_⟩
      · simpa [readTarLoop, hr, decodedTrace] using h2
      · intro name
        simp only [readTarLoop, hr]
        rw [h3 name, mapGet_mapSet]
        constructor
        · rintro (h | ⟨payload, e, hmem, he⟩)
          · by_cases hn : name = n
            · subst hn
              exact Or.inr ⟨p, err, List.mem_cons_self _ _, hr⟩
            · simp only [hn, if_false] at h
              exact Or.inl h
          · exact Or.inr ⟨payload, e, List.mem_cons_of_mem _ hmem, he⟩
        · rintro (h | ⟨payload, e, hmem, he⟩)
          · by_cases hn : name = n
            · simp [hn]
            · simp only [hn, if_false]
              exact Or.inl h
          · rcases List.mem_cons.mp hmem with heq | hmem
            · injection heq with h1 h2
              left; simp [h1]
            · exact Or.inr ⟨payload, e, hmem, he⟩
    | ok trace =>
      obtain ⟨h1, h2, h3⟩ := ih hrest (traces ++ [trace]) errs
      refine ⟨by simpa [readTarLoop, hr] using h1, ?_, ?_⟩
      · simpa [readTarLoop, hr, decodedTrace] using h2
      · intro name
        simp only [readTarLoop, hr]
        rw [h3 name]
        constructor
        · rintro (h | ⟨payload, e, hmem, he⟩)
          · exact Or.inl h
          · exact Or.inr ⟨payload, e, List.mem_cons_of_mem _ hmem, he⟩
        · rintro (h | ⟨payload, e, hmem, he⟩)
          · exact Or.inl h
          · rcases List.mem_cons.mp hmem with heq | hmem
            · injection heq with h1 h2
              subst h2
              rw [hr] at he
              cases he
            · exact Or.inr ⟨payload, e, hmem, he⟩

theorem sortSearchLoop_spec (n : Nat) (f : Nat → Option Bool) (g : Nat → Bool)
    (hf : ∀ k, k < n → f k = some (g k))
    (hmono : ∀ k k', k ≤ k' → k' < n → g k = true → g k' = true) :
    ∀ (fuel i j : Nat), i ≤ j → j ≤ n → j - i ≤ fuel →
      (∀ k, k < i → g k = false) → (∀ k, j ≤ k → k < n → g k = true) →
      ∃ r, sortSearchLoop f fuel i j = some r ∧ r ≤ n ∧
        (∀ k, k < r → g k = false) ∧ (∀ k, r ≤ k → k < n → g k = true) := by
  intro fuel
  induction fuel with
  | zero =>
    intro i j hij hjn hfuel hlo hhi
    have : i = j := by omega
    subst this
    exact ⟨i, by simp [sortSearchLoop], hjn, hlo, hhi⟩
  | succ fuel ih =>
    intro i j hij hjn hfuel hlo hhi
    by_cases hlt : i < j
    · have hh : i + (j - i) / 2 < j := by omega
      have hhn : i + (j - i) / 2 < n := by omega
      cases hg : g (i + (j - i) / 2) with
      | false =>
        have hstep : sortSearchLoop f (fuel + 1) i j
            = sortSearchLoop f fuel (i + (j - i) / 2 + 1) j := by
          simp [sortSearchLoop, hlt, hf _ hhn, hg]
        rw [hstep]
        apply ih _ _ (by omega) hjn (by omega) _ hhi
        intro k hk
        by_contra hne
        have hkt : g k = true := by simpa using hne
        have := hmono k _ (by omega) hhn hkt
        rw [hg] at this
        cases this
      | true =>
        have hstep : sortSearchLoop f (fuel + 1) i j
            = sortSearchLoop f fuel i (i + (j - i) / 2) := by
          simp [sortSearchLoop, hlt, hf _ hhn, hg]
        rw [hstep]
        apply ih _ _ (by omega) (by omega) (by omega) hlo
        intro k hk hkn
        exact hmono _ k hk hkn hg
    · have : i = j := by omega
      subst this
      exact ⟨i, by simp [sortSearchLoop], hjn, hlo, hhi⟩

theorem mergePred_eq (existing : List Trace) (trace : Trace)
    (hex : AllSeqPresent existing) (ht : trace.SequenceNumber.isSome = true)
    (k : Nat) (hk : k < existing.length) :
    mergePred existing trace k
      = some (decide (seqVal (existing.get ⟨k, hk⟩) ≥ seqVal trace)) := by
  have hmem : existing.get ⟨k, hk⟩ ∈ existing := List.get_mem _ _ _
  have hpres := hex _ hmem
  unfold mergePred
  rw [List.getElem?_eq_getElem hk]
  simp only [List.get_eq_getElem] at hpres ⊢
  cases he : (existing[k]).SequenceNumber with
  | none => rw [he] at hpres; cases hpres
  | some a =>
    cases hs : trace.SequenceNumber with
    | none => rw [hs] at ht; cases ht
    | some b => simp [seqVal, he, hs]

theorem mergeStep_spec (existing : List Trace) (trace : Trace)
    (hex : AllSeqPresent existing) (hasc : AscendingBySeq existing)
    (ht : trace.SequenceNumber.isSome = true) :
    ∃ merged, mergeStep existing trace = some merged ∧
      AllSeqPresent merged ∧ AscendingBySeq merged := by
  let g : Nat → Bool := fun k =>
    match existing[k]? with
    | some e => decide (seqVal e ≥ seqVal trace)
    | none => false
  have hg : ∀ k (hk : k < existing.length),
      g k = decide (seqVal (existing.get ⟨k, hk⟩) ≥ seqVal trace) := by
    intro k hk
    simp [g, List.getElem?_eq_getElem hk]
  have hf : ∀ k, k < existing.length → mergePred existing trace k = some (g k) := by
    intro k hk
    rw [mergePred_eq existing trace hex ht k hk, hg k hk]
  have hmono : ∀ k k', k ≤ k' → k' < existing.length → g k = true → g k' = true := by
    intro k k' hkk hk' hgk
    have hk : k < existing.length := by omega
    rw [hg k hk] at hgk
    rw [hg k' hk']
    rcases Nat.eq_or_lt_of_le hkk with heq | hlt
    · subst heq; exact hgk
    · have := List.pairwise_iff_get.mp hasc ⟨k, hk⟩ ⟨k', hk'⟩ hlt
      simp only [decide_eq_true_eq] at hgk ⊢
      omega
  obtain ⟨r, hr, hrn, hlo, hhi⟩ :=
    sortSearchLoop_spec existing.length (mergePred existing trace) g hf hmono
      existing.length 0 existing.length (Nat.zero_le _) (Nat.le_refl _) (by omega)
      (by intro k hk; omega) (by intro k hk hkn; omega)
  unfold mergeStep sortSearch
  rw [hr]
  simp only
  split
  · exact ⟨existing, rfl, hex, hasc⟩
  · refine ⟨_, rfl, ?_, ?_⟩
    · intro t hmem
      rcases List.mem_append.mp hmem with h | h
      · exact hex t (List.mem_of_mem_take h)
      · rcases List.mem_cons.mp h with h | h
        · subst h; exact ht
        · exact hex t (List.mem_of_mem_drop h)
    · have htake : ∀ a ∈ existing.take r, seqVal a < seqVal trace := by
        intro a ha
        obtain ⟨k, hk, rfl⟩ := List.getElem_of_mem ha
        have hkr : k < r := by
          have := hk; simp only [List.length_take] at this; omega
        have hkl : k < existing.length := by omega
        have h1 := hlo k hkr
        rw [hg k hkl] at h1
        simp only [List.getElem_take, List.get_eq_getElem, decide_eq_false_iff_not,
          not_le] at h1 ⊢
        omega
      have hdrop : ∀ b ∈ existing.drop r, seqVal trace ≤ seqVal b := by
        intro b hb
        obtain ⟨k, hk, rfl⟩ := List.getElem_of_mem hb
        have hkl : r + k < existing.length := by
          have := hk; simp only [List.length_drop] at this; omega
        have h1 := hhi (r + k) (by omega) hkl
        rw [hg (r + k) hkl] at h1
        simp only [List.getElem_drop, List.get_eq_getElem, decide_eq_true_eq] at h1 ⊢
        omega
      unfold AscendingBySeq
      rw [List.pairwise_append]
      refine ⟨hasc.sublist (List.take_sublist _ _), ?_, ?_⟩
      · rw [List.pairwise_cons]
        exact ⟨hdrop, hasc.sublist (List.drop_sublist _ _)⟩
      · intro a ha b hb
        rcases List.mem_cons.mp hb with h | h
        · subst h; exact le_of_lt (htake a ha)
        · exact le_trans (le_of_lt (htake a ha)) (hdrop b h)

theorem mergeTraces_spec (newTraces : List Trace) :
    ∀ existing : List Trace, AllSeqPresent existing → AscendingBySeq existing →
      AllSeqPresent newTraces →
      ∃ merged, mergeTraces existing newTraces = some merged ∧
        AllSeqPresent merged ∧ AscendingBySeq merged := by
  induction newTraces with
  | nil => intro existing hex hasc _; exact ⟨existing, rfl, hex, hasc⟩
  | cons t rest ih =>
    intro existing hex hasc hnew
    obtain ⟨m, hm, hmp, hma⟩ :=
      mergeStep_spec existing t hex hasc (hnew t (List.mem_cons_self _ _))
    obtain ⟨m', hm', hp', ha'⟩ :=
      ih m hmp hma (fun x hx => hnew x (List.mem_cons_of_mem _ hx))
    exact ⟨m', by simp [mergeTraces, hm, hm'], hp', ha'⟩

theorem digitChar_isDecDigit (k : Nat) (hk : k < 10) :
    isDecDigit (Nat.digitChar k) ∧ (Nat.digitChar k).toNat - 48 = k := by
  unfold isDecDigit
  interval_cases k <;> exact ⟨by decide, by decide⟩

theorem natOfDigits_append_singleton (pre : List Char) (c : Char) :
    natOfDigits (pre ++ [c]) = 10 * natOfDigits pre + (c.toNat - 48) := by
  simp [natOfDigits, List.foldl_append]

theorem toDigitsCore_spec (fuel : Nat) :
    ∀ (n : Nat) (ds : List Char), n < fuel →
      ∃ pre, Nat.toDigitsCore 10 fuel n ds = pre ++ ds ∧ pre ≠ [] ∧
        (∀ c ∈ pre, isDecDigit c) ∧ natOfDigits pre = n := by
  induction fuel with
  | zero => intro n ds h; omega
  | succ fuel ih =>
    intro n ds h
    obtain ⟨hd, hv⟩ := digitChar_isDecDigit (n % 10) (Nat.mod_lt _ (by decide))
    by_cases h0 : n / 10 = 0
    · refine ⟨[Nat.digitChar (n % 10)], by simp [Nat.toDigitsCore, h0], by simp, ?_, ?_⟩
      · intro c hc
        rw [List.mem_singleton] at hc
        subst hc; exact hd
      · simp only [natOfDigits, List.foldl_cons, List.foldl_nil, hv]
        omega
    · obtain ⟨pre, hpre, _, hdig, hval⟩ :=
        ih (n / 10) (Nat.digitChar (n % 10) :: ds) (by omega)
      refine ⟨pre ++ [Nat.digitChar (n % 10)], ?_, by simp, ?_, ?_⟩
      · simp [Nat.toDigitsCore, h0, hpre]
      · intro c hc
        rcases List.mem_append.mp hc with h | h
        · exact hdig c h
        · rw [List.mem_singleton] at h
          subst h; exact hd
      · rw [natOfDigits_append_singleton, hval, hv]
        omega

theorem natToString_spec (n : Nat) :
    (toString n).data ≠ [] ∧ (∀ c ∈ (toString n).data, isDecDigit c) ∧
      natOfDigits (toString n).data = n := by
  obtain ⟨pre, hpre, hne, hdig, hval⟩ := toDigitsCore_spec (n + 1) n [] (by omega)
  have hdata : (toString n).data = pre := by
    show (Nat.repr n).data = pre
    simp [Nat.repr, Nat.toDigits, hpre, List.asString]
  rw [hdata]
  exact ⟨hne, hdig, hval⟩

theorem intToString_data (z : Int) :
    (0 ≤ z ∧ (toString z).data = (toString z.toNat).data) ∨
    (z < 0 ∧ (toString z).data = '-' :: (toString (-z).toNat).data) := by
  cases z with
  | ofNat m => left; exact ⟨Int.ofNat_nonneg m, rfl⟩
  | negSucc m =>
    right
    refine ⟨Int.negSucc_lt_zero m, ?_⟩
    show ("-" ++ toString (Nat.succ m)).data = _
    rw [String.data_append]
    rfl

theorem intToString_isDecimal (z : Int) : IsDecimal (toString z).data := by
  rcases intToString_data z with ⟨_, h⟩ | ⟨_, h⟩
  · obtain ⟨h1, h2, _⟩ := natToString_spec z.toNat
    exact ⟨_, Or.inl h, h1, h2⟩
  · obtain ⟨h1, h2, _⟩ := natToString_spec (-z).toNat
    exact ⟨_, Or.inr h, h1, h2⟩

theorem isDecDigit_ne_minus {c : Char} (h : isDecDigit c) : c ≠ '-' := by
  intro hc; subst hc; revert h; unfold isDecDigit; decide

theorem isDecDigit_ne_slash {c : Char} (h : isDecDigit c) : c ≠ '/' := by
  intro hc; subst hc; revert h; unfold isDecDigit; decide

theorem intOfChars_toString (z : Int) : intOfChars (toString z).data = z := by
  rcases intToString_data z with ⟨hz, h⟩ | ⟨hz, h⟩
  · obtain ⟨h1, h2, h3⟩ := natToString_spec z.toNat
    rw [h]
    have hform : ∀ l : List Char, l ≠ [] → (∀ c ∈ l, isDecDigit c) →
        intOfChars l = (natOfDigits l : Int) := by
      intro l hl hd
      cases l with
      | nil => exact absurd rfl hl
      | cons a t =>
        have ha : a ≠ '-' := isDecDigit_ne_minus (hd a (List.mem_cons_self _ _))
        unfold intOfChars
        split
        · rename_i heq
          injection heq with h1 _
          exact absurd h1 ha
        · rfl
    rw [hform _ h1 h2, h3]
    omega
  · obtain ⟨_, _, h3⟩ := natToString_spec (-z).toNat
    rw [h]
    show - (natOfDigits (toString (-z).toNat).data : Int) = z
    rw [h3]
    omega

theorem intToString_injective {a b : Int} (h : toString a = toString b) : a = b := by
  rw [← intOfChars_toString a, ← intOfChars_toString b, h]

/-- Splitting at the first occurrence of a separator is unambiguous. -/
theorem append_sep_inj (c : Char) :
    ∀ (a b s t : List Char), c ∉ a → c ∉ b → a ++ c :: s = b ++ c :: t → a = b ∧ s = t := by
  intro a
  induction a with
  | nil =>
    intro b s t _ hb h
    cases b with
    | nil => simpa using h
    | cons x xs =>
      simp only [List.nil_append, List.cons_append, List.cons.injEq] at h
      exact absurd (h.1 ▸ List.mem_cons_self _ _) hb
  | cons x xs ih =>
    intro b s t ha hb h
    cases b with
    | nil =>
      simp only [List.nil_append, List.cons_append, List.cons.injEq] at h
      exact absurd (h.1 ▸ List.mem_cons_self _ _) ha
    | cons y ys =>
      simp only [List.cons_append, List.cons.injEq] at h
      obtain ⟨rfl, h2⟩ := h
      obtain ⟨h3, h4⟩ := ih ys s t (fun hm => ha (List.mem_cons_of_mem _ hm))
        (fun hm => hb (List.mem_cons_of_mem _ hm)) h2
      exact ⟨by rw [h3], h4⟩

theorem decimal_sep_inj (s1 s2 t1 t2 : List Char) (h1 : IsDecimal s1) (h2 : IsDecimal s2)
    (h : s1 ++ '-' :: t1 = s2 ++ '-' :: t2) : s1 = s2 ∧ t1 = t2 := by
  obtain ⟨p1, hs1, hne1, hd1⟩ := h1
  obtain ⟨p2, hs2, hne2, hd2⟩ := h2
  have hm1 : '-' ∉ p1 := fun hm => isDecDigit_ne_minus (hd1 _ hm) rfl
  have hm2 : '-' ∉ p2 := fun hm => isDecDigit_ne_minus (hd2 _ hm) rfl
  rcases hs1 with rfl | rfl <;> rcases hs2 with rfl | rfl
  · exact append_sep_inj '-' _ _ _ _ hm1 hm2 h
  · cases s1 with
    | nil => exact absurd rfl hne1
    | cons x xs =>
      simp only [List.cons_append, List.cons.injEq] at h
      exact absurd h.1 (isDecDigit_ne_minus (hd1 x (List.mem_cons_self _ _)))
  · cases s2 with
    | nil => exact absurd rfl hne2
    | cons x xs =>
      simp only [List.cons_append, List.cons.injEq] at h
      exact absurd h.1.symm (isDecDigit_ne_minus (hd2 x (List.mem_cons_self _ _)))
  · simp only [List.cons_append, List.cons.injEq, true_and] at h
    obtain ⟨h3, h4⟩ := append_sep_inj '-' _ _ _ _ hm1 hm2 h
    exact ⟨by rw [h3], h4⟩

theorem splitSlash_ne_nil (l : List Char) : splitSlash l ≠ [] := by
  cases l with
  | nil => simp [splitSlash]
  | cons c cs =>
    unfold splitSlash
    split
    · simp
    · split <;> simp

theorem splitSlash_plain (g : List Char) (h : '/' ∉ g) : splitSlash g = [g] := by
  induction g with
  | nil => rfl
  | cons c cs ih =>
    have hc : c ≠ '/' := fun e => h (e ▸ List.mem_cons_self _ _)
    have hcs : '/' ∉ cs := fun hm => h (List.mem_cons_of_mem _ hm)
    simp [splitSlash, hc, ih hcs]

theorem splitSlash_append (g : List Char) (h : '/' ∉ g) :
    ∀ P : List Char, splitSlash (P ++ '/' :: g) = splitSlash P ++ [g] := by
  intro P
  induction P with
  | nil => simp [splitSlash, splitSlash_plain g h]
  | cons c cs ih =>
    by_cases hc : c = '/'
    · simp [splitSlash, hc, ih]
    · have hne := splitSlash_ne_nil cs
      cases hs : splitSlash cs with
      | nil => exact absurd hs hne
      | cons x xs => simp [splitSlash, hc, ih, hs]

theorem cleanStep_plain (rooted : Bool) (kept : List (List Char)) (g : List Char)
    (h : PlainElem g) : cleanStep rooted kept g = g :: kept := by
  obtain ⟨_, h1, h2, h3⟩ := h
  simp [cleanStep, h1, h2, h3]

theorem cleanElems_append (rooted : Bool) (P g : List Char) (h : PlainElem g) :
    cleanElems rooted (P ++ '/' :: g) = cleanElems rooted P ++ [g] := by
  unfold cleanElems
  rw [splitSlash_append g h.1, List.foldl_append]
  simp [cleanStep_plain rooted _ g h]

theorem foldl_cleanStep_ne_nil (rooted : Bool) (l : List (List Char)) :
    ∀ kept : List (List Char), (∀ e ∈ kept, e ≠ []) →
      ∀ e ∈ l.foldl (cleanStep rooted) kept, e ≠ [] := by
  induction l with
  | nil => intro kept hk; simpa using hk
  | cons c cs ih =>
    intro kept hk
    rw [List.foldl_cons]
    apply ih
    intro e he
    unfold cleanStep at he
    split at he
    · exact hk e he
    · split at he
      · rename_i hdd
        split at he
        · split at he
          · simp at he
          · rw [List.mem_singleton] at he
            subst he; rw [hdd]; simp
        · rename_i top below
          split at he
          · rcases List.mem_cons.mp he with h | h
            · subst h; rw [hdd]; simp
            · exact hk e h
          · exact hk e (List.mem_cons_of_mem _ he)
      · rename_i hne _
        rcases List.mem_cons.mp he with h | h
        · subst h
          intro h0; exact hne (Or.inl h0)
        · exact hk e h

theorem cleanElems_ne_nil (rooted : Bool) (P : List Char) :
    ∀ e ∈ cleanElems rooted P, e ≠ [] := by
  intro e he
  unfold cleanElems at he
  rw [List.mem_reverse] at he
  exact foldl_cleanStep_ne_nil rooted _ [] (by simp) e he

theorem joinSlash_append (g : List Char) :
    ∀ es : List (List Char), es ≠ [] → joinSlash (es ++ [g]) = joinSlash es ++ '/' :: g := by
  intro es
  induction es with
  | nil => intro h; exact absurd rfl h
  | cons x xs ih =>
    intro _
    cases xs with
    | nil => simp [joinSlash]
    | cons y ys =>
      have := ih (by simp)
      simp only [List.cons_append] at this ⊢
      simp [joinSlash, this]

theorem joinSlash_ne_nil (es : List (List Char)) (hne : es ≠ []) (h : ∀ e ∈ es, e ≠ []) :
    joinSlash es ≠ [] := by
  cases es with
  | nil => exact absurd rfl hne
  | cons x xs =>
    have hx := h x (List.mem_cons_self _ _)
    cases xs with
    | nil => simpa [joinSlash] using hx
    | cons y ys => simp [joinSlash, hx]

theorem isRooted_append (P s : List Char) (h : P ≠ []) : isRooted (P ++ s) = isRooted P := by
  cases P with
  | nil => exact absurd rfl h
  | cons c cs => rfl

theorem cleanChars_append (P g : List Char) (hP : P ≠ []) (hg : PlainElem g) :
    cleanChars (P ++ '/' :: g) = cleanPrefix P ++ g := by
  unfold cleanPrefix cleanChars
  simp only [isRooted_append P _ hP, cleanElems_append _ P g hg]
  by_cases he : cleanElems (isRooted P) P = []
  · simp only [he, List.nil_append, joinSlash, if_true]
    cases isRooted P <;> simp [hg.2.1]
  · have hbody := joinSlash_ne_nil _ he (cleanElems_ne_nil (isRooted P) P)
    rw [joinSlash_append g _ he]
    simp only [he, if_false]
    cases hr : isRooted P <;> rw [hr] at hbody <;> simp [hbody]

theorem cleanPrefix_append (P g : List Char) (hP : P ≠ []) (hg : PlainElem g) :
    cleanPrefix (P ++ '/' :: g) = cleanPrefix P ++ g ++ ['/'] := by
  have h1 : cleanElems (isRooted (P ++ '/' :: g)) (P ++ '/' :: g) ≠ [] := by
    rw [cleanElems_append _ P g hg]; simp
  unfold cleanPrefix at *
  rw [if_neg h1]
  have := cleanChars_append P g hP hg
  unfold cleanPrefix at this
  rw [this]

theorem string_ne_empty_data {s : String} (h : s ≠ "") : s.data ≠ [] := by
  intro hd
  apply h
  apply String.ext
  simpa using hd

theorem plain_traces : PlainElem "traces".data := by
  unfold PlainElem; decide

theorem filepathJoin_data (indexPath x y : String) (hx : PlainElem x.data)
    (hy : PlainElem y.data) :
    (filepathJoin [indexPath, "traces", x, y]).data
      = rootPrefix indexPath ++ "traces".data ++ '/' :: x.data ++ '/' :: y.data := by
  have hxne : x ≠ "" := by
    intro h; rw [h] at hx; exact hx.2.1 rfl
  by_cases hroot : indexPath = ""
  · subst hroot
    have hassoc : joinWithSlash ["traces", x, y]
        = ("traces".data ++ '/' :: x.data) ++ '/' :: y.data := by
      simp [joinWithSlash]
    have h1 : filepathJoin ["", "traces", x, y]
        = String.mk (cleanChars (joinWithSlash ["traces", x, y])) := by
      rw [filepathJoin, if_pos rfl, filepathJoin, if_neg (by decide)]
    rw [h1, hassoc, cleanChars_append _ _ (by simp) hy]
    have h2 : cleanPrefix ("traces".data ++ '/' :: x.data)
        = "traces".data ++ '/' :: x.data ++ ['/'] := by
      have h3 : cleanElems (isRooted ("traces".data ++ '/' :: x.data))
          ("traces".data ++ '/' :: x.data) ≠ [] := by
        rw [cleanElems_append _ _ _ hx]; simp
      unfold cleanPrefix
      rw [if_neg h3, cleanChars_append _ _ (by decide) hx]
      have h4 : cleanPrefix "traces".data = "traces".data ++ ['/'] := by decide
      rw [h4]; simp
    rw [h2]
    simp [rootPrefix]
  · have hne := string_ne_empty_data hroot
    have hassoc : joinWithSlash [indexPath, "traces", x, y]
        = ((indexPath.data ++ '/' :: "traces".data) ++ '/' :: x.data) ++ '/' :: y.data := by
      simp [joinWithSlash]
    have h1 : filepathJoin [indexPath, "traces", x, y]
        = String.mk (cleanChars (joinWithSlash [indexPath, "traces", x, y])) := by
      rw [filepathJoin, if_neg hroot]
    rw [h1, hassoc, cleanChars_append _ _ (by simp) hy,
      cleanPrefix_append _ _ (by simp) hx, cleanPrefix_append _ _ hne plain_traces]
    simp [rootPrefix, hroot]

theorem rootPrefix_of_clean (indexPath : String) (hclean : filepathClean indexPath = indexPath)
    (h1 : indexPath ≠ "/") (h2 : indexPath ≠ ".") :
    rootPrefix indexPath = indexPath.data ++ ['/'] := by
  have hd : cleanChars indexPath.data = indexPath.data := by
    have := congrArg String.data hclean
    simpa [filepathClean] using this
  have hne : indexPath ≠ "" := by
    intro h
    rw [h] at hclean
    revert hclean
    decide
  unfold rootPrefix cleanPrefix
  rw [if_neg hne]
  by_cases he : cleanElems (isRooted indexPath.data) indexPath.data = []
  · exfalso
    unfold cleanChars at hd
    simp only [he, joinSlash] at hd
    cases hr : isRooted indexPath.data
    · rw [hr] at hd
      simp only [Bool.false_eq_true, if_false, if_true] at hd
      exact h2 (String.ext (by rw [← hd]))
    · rw [hr] at hd
      simp only [if_true] at hd
      exact h1 (String.ext (by rw [← hd]))
  · rw [if_neg he, hd]

/-! ## The indexer -/

/-- C1 (defect in the code). The archive `/tars/a.tar` holds a trace of bucket 0
and a trace of bucket 1, and the chunk file of bucket 0 cannot be opened.
`writeChunk` for the chunk of bucket 0, called with that archive's trace,
returns false; the later `writeChunk` for bucket 1 succeeds, and the marker of
the archive is installed all the same, so the marker invariant fails on this
run: the archive joins the pending archives only after its traces are walked,
and the flush of its earlier chunk never sees it. -/
theorem IndexTraces_marks_archive_after_failed_chunk :
    archiveTraces failingOpenEnv "/tars/a.tar" = [traceAt 2 1000, traceAt 1 0] ∧
    (IndexTraces failingOpenEnv lockedChunkFS "/tars" "/idx").map
        (fun st => (st.events, st.fs.links "/idx/tarballs/a.tar",
          st.fs.chunks "/idx/traces/node-sig/0-0", st.counters.tarsFailed))
      = some ([Event.wrote "/idx/traces/node-sig/0-0" [traceAt 1 0] false,
               Event.wrote "/idx/traces/node-sig/0-1" [traceAt 2 1000] true,
               Event.linked "/tars/a.tar" "/idx/tarballs/a.tar" true],
              some "/tars/a.tar", ChunkFile.unopenable, 0) ∧
    ¬ MarkerInvariant failingOpenEnv
        [Event.wrote "/idx/traces/node-sig/0-0" [traceAt 1 0] false,
         Event.wrote "/idx/traces/node-sig/0-1" [traceAt 2 1000] true,
         Event.linked "/tars/a.tar" "/idx/tarballs/a.tar" true] := by
  refine ⟨by decide, by decide, ?_⟩
  intro h
  have hfalse := h "/tars/a.tar" "/idx/tarballs/a.tar" (by decide)
    "/idx/traces/node-sig/0-0" [traceAt 1 0] false (by decide)
    ⟨traceAt 1 0, by decide, by decide⟩
  cases hfalse

/-- C2 (as stated, false). At a chunk path that holds a file which is not a
gzip stream, `writeChunk` returns success and replaces the file by the new
traces alone. -/
theorem writeChunk_overwrites_unreadable_chunk :
    (emptyFS.setChunk "/idx/traces/node-sig/0-0" ChunkFile.notGzip).chunks
        "/idx/traces/node-sig/0-0" = ChunkFile.notGzip ∧
    (writeChunk demoEnv (emptyFS.setChunk "/idx/traces/node-sig/0-0" ChunkFile.notGzip)
        "/idx/traces/node-sig/0-0" [traceAt 1 5]).map
        (fun r => (r.1, r.2.chunks "/idx/traces/node-sig/0-0"))
      = some ((true, 0), ChunkFile.chunk [traceAt 1 5]) := by
  decide

/-- C2 (amended). At a chunk path whose file cannot be opened, decompressed or
deserialized, `writeChunk` proceeds as for a missing file: it never panics and
reports 0 traces read; it returns success exactly when marshalling,
`MkdirAll`, `OpenFile` and the write all succeed, and then the file holds
exactly the new traces; when marshalling, `MkdirAll` or `OpenFile` fails the
file is left as it was; when these three succeed and the write fails the
truncated file is left, which is no gzip stream. -/
theorem writeChunk_unreadable_as_missing (env : Env) (fs : FS) (chunkPath : String)
    (newTraces : List Trace) (_hfile : fs.chunks chunkPath ≠ ChunkFile.missing)
    (hbad : readTraces fs chunkPath = none) :
    ∃ written fs', writeChunk env fs chunkPath newTraces = some ((written, 0), fs') ∧
      (written = true ↔
        (env.marshalOk newTraces = true ∧ env.mkdirAllOk (filepathDir chunkPath) = true ∧
          env.openFileOk chunkPath = true ∧ env.writeOk chunkPath = true)) ∧
      (written = true → fs'.chunks chunkPath = ChunkFile.chunk newTraces) ∧
      (¬ (env.marshalOk newTraces = true ∧ env.mkdirAllOk (filepathDir chunkPath) = true ∧
          env.openFileOk chunkPath = true) → fs'.chunks chunkPath = fs.chunks chunkPath) ∧
      (env.marshalOk newTraces = true → env.mkdirAllOk (filepathDir chunkPath) = true →
        env.openFileOk chunkPath = true → env.writeOk chunkPath = false →
        fs'.chunks chunkPath = ChunkFile.notGzip) := by
  have hw : writeChunk env fs chunkPath newTraces
      = some (storeChunk env fs chunkPath newTraces 0) := by
    unfold writeChunk; rw [hbad]
  rw [hw]
  unfold storeChunk
  cases h1 : env.marshalOk newTraces
  · exact ⟨false, fs, by simp, by simp, by simp, by simp, by simp⟩
  · cases h2 : env.mkdirAllOk (filepathDir chunkPath)
    · exact ⟨false, fs, by simp, by simp, by simp, by simp, by simp⟩
    · cases h3 : env.openFileOk chunkPath
      · exact ⟨false, fs, by simp, by simp, by simp, by simp, by simp⟩
      · cases h4 : env.writeOk chunkPath
        · exact ⟨false, fs.setChunk chunkPath ChunkFile.notGzip,
            by simp, by simp, by simp, by simp, by simp [FS.setChunk]⟩
        · exact ⟨true, fs.setChunk chunkPath (ChunkFile.chunk newTraces),
            by simp, by simp, by simp [FS.setChunk], by simp, by simp⟩

/-- C2 (amended), at a file whose gzip stream breaks off, once with every step
succeeding and once with a failing write. -/
theorem writeChunk_unreadable_as_missing_witness :
    (∃ written fs', writeChunk demoEnv
        (emptyFS.setChunk "/idx/traces/node-sig/0-0" ChunkFile.badStream)
        "/idx/traces/node-sig/0-0" [traceAt 1 5] = some ((written, 0), fs') ∧
      (written = true ↔
        (demoEnv.marshalOk [traceAt 1 5] = true ∧
          demoEnv.mkdirAllOk (filepathDir "/idx/traces/node-sig/0-0") = true ∧
          demoEnv.openFileOk "/idx/traces/node-sig/0-0" = true ∧
          demoEnv.writeOk "/idx/traces/node-sig/0-0" = true)) ∧
      (written = true →
        fs'.chunks "/idx/traces/node-sig/0-0" = ChunkFile.chunk [traceAt 1 5]) ∧
      (¬ (demoEnv.marshalOk [traceAt 1 5] = true ∧
          demoEnv.mkdirAllOk (filepathDir "/idx/traces/node-sig/0-0") = true ∧
          demoEnv.openFileOk "/idx/traces/node-sig/0-0" = true) →
        fs'.chunks "/idx/traces/node-sig/0-0"
          = (emptyFS.setChunk "/idx/traces/node-sig/0-0" ChunkFile.badStream).chunks
              "/idx/traces/node-sig/0-0") ∧
      (demoEnv.marshalOk [traceAt 1 5] = true →
        demoEnv.mkdirAllOk (filepathDir "/idx/traces/node-sig/0-0") = true →
        demoEnv.openFileOk "/idx/traces/node-sig/0-0" = true →
        demoEnv.writeOk "/idx/traces/node-sig/0-0" = false →
        fs'.chunks "/idx/traces/node-sig/0-0" = ChunkFile.notGzip)) ∧
    (writeChunk demoEnv (emptyFS.setChunk "/idx/traces/node-sig/0-0" ChunkFile.badStream)
        "/idx/traces/node-sig/0-0" [traceAt 1 5]).map
        (fun r => (r.1, r.2.chunks "/idx/traces/node-sig/0-0"))
      = some ((true, 0), ChunkFile.chunk [traceAt 1 5]) ∧
    (writeChunk failingWriteEnv
        (emptyFS.setChunk "/idx/traces/node-sig/0-0" ChunkFile.badStream)
        "/idx/traces/node-sig/0-0" [traceAt 1 5]).map
        (fun r => (r.1, r.2.chunks "/idx/traces/node-sig/0-0"))
      = some ((false, 0), ChunkFile.notGzip) :=
  ⟨writeChunk_unreadable_as_missing demoEnv
    (emptyFS.setChunk "/idx/traces/node-sig/0-0" ChunkFile.badStream)
    "/idx/traces/node-sig/0-0" [traceAt 1 5] (by decide) (by decide),
   by decide, by decide⟩

/-- C3 (defect in the code). The chunk holds one trace with sequence number 5,
the new trace is another message with sequence number 5. `mergeTraces` compares
the two `SequenceNumber` pointers, which differ, and inserts the new trace: the
merged list holds two traces with the same sequence number. -/
theorem mergeTraces_keeps_equal_sequence_number :
    mergeTraces [traceAt 1 5] [traceAt 2 5] = some [traceAt 2 5, traceAt 1 5] ∧
      ([traceAt 2 5, traceAt 1 5].map seqVal) = [5, 5] := by
  decide

/-- C4. Whatever is at the chunk path, when an existing chunk has its sequence
numbers present and ascending and the new traces have theirs present and
ascending, `writeChunk` returns, and if it reports success the file then holds
a list whose sequence numbers are present and ascending: the new traces
themselves when no chunk could be read, the merged list otherwise. -/
theorem writeChunk_serializes_ascending (env : Env) (fs : FS) (chunkPath : String)
    (newTraces : List Trace)
    (hex : ∀ existing, fs.chunks chunkPath = ChunkFile.chunk existing →
      AllSeqPresent existing ∧ AscendingBySeq existing)
    (hpresent : AllSeqPresent newTraces) (hasc : AscendingBySeq newTraces) :
    ∃ written tracesRead fs',
      writeChunk env fs chunkPath newTraces = some ((written, tracesRead), fs') ∧
      (written = true → ∃ serialized, fs'.chunks chunkPath = ChunkFile.chunk serialized ∧
        AllSeqPresent serialized ∧ AscendingBySeq serialized ∧
        (readTraces fs chunkPath = none → serialized = newTraces) ∧
        (∀ existing, readTraces fs chunkPath = some existing →
          mergeTraces existing newTraces = some serialized)) := by
  have key : ∀ (traces : List Trace) (n : Nat), AscendingBySeq traces →
      ∃ written tracesRead fs',
        storeChunk env fs chunkPath traces n = ((written, tracesRead), fs') ∧
        (written = true → fs'.chunks chunkPath = ChunkFile.chunk traces) := by
    intro traces n _
    unfold storeChunk
    cases h1 : env.marshalOk traces
    · exact ⟨false, n, fs, by simp, by simp⟩
    · cases h2 : env.mkdirAllOk (filepathDir chunkPath)
      · exact ⟨false, n, fs, by simp, by simp⟩
      · cases h3 : env.openFileOk chunkPath
        · exact ⟨false, n, fs, by simp, by simp⟩
        · cases h4 : env.writeOk chunkPath
          · exact ⟨false, n, fs.setChunk chunkPath ChunkFile.notGzip, by simp, by simp⟩
          · exact ⟨true, n, fs.setChunk chunkPath (ChunkFile.chunk traces), by simp,
              by simp [FS.setChunk]⟩
  have hcases : readTraces fs chunkPath = none ∨
      ∃ existing, readTraces fs chunkPath = some existing := by
    cases readTraces fs chunkPath with
    | none => exact Or.inl rfl
    | some e => exact Or.inr ⟨e, rfl⟩
  rcases hcases with hread | ⟨existing, hread⟩
  · have hw : writeChunk env fs chunkPath newTraces
        = some (storeChunk env fs chunkPath newTraces 0) := by
      unfold writeChunk; rw [hread]
    obtain ⟨written, n, fs', hst, hfile⟩ := key newTraces 0 hasc
    refine ⟨written, n, fs', by rw [hw, hst], fun hwr => ⟨newTraces, hfile hwr, hpresent, hasc,
      fun _ => rfl, ?_⟩⟩
    intro e he
    rw [hread] at he
    cases he
  · have hfile : fs.chunks chunkPath = ChunkFile.chunk existing := by
      unfold readTraces at hread
      split at hread
      · rename_i ts heq
        injection hread with h
        rw [heq, h]
      · cases hread
    obtain ⟨hp, ha⟩ := hex existing hfile
    obtain ⟨merged, hm, hmp, hma⟩ := mergeTraces_spec newTraces existing hp ha hpresent
    have hw : writeChunk env fs chunkPath newTraces
        = some (storeChunk env fs chunkPath merged existing.length) := by
      unfold writeChunk; rw [hread]; simp only [hm]
    obtain ⟨written, n, fs', hst, hfile'⟩ := key merged existing.length hma
    refine ⟨written, n, fs', by rw [hw, hst], fun hwr =>
      ⟨merged, hfile' hwr, hmp, hma, ?_, ?_⟩⟩
    · intro hnone
      rw [hread] at hnone
      cases hnone
    · intro e he
      rw [hread] at he
      injection he with he
      rw [← he, hm]

/-- C4, on a chunk with sequence numbers 3 and 9 and new traces 5 and 12. -/
theorem writeChunk_serializes_ascending_witness :
    ∃ written tracesRead fs',
      writeChunk demoEnv (emptyFS.setChunk "/idx/traces/node-sig/0-0"
          (ChunkFile.chunk [traceAt 1 3, traceAt 2 9])) "/idx/traces/node-sig/0-0"
          [traceAt 3 5, traceAt 4 12] = some ((written, tracesRead), fs') ∧
      (written = true → ∃ serialized,
        fs'.chunks "/idx/traces/node-sig/0-0" = ChunkFile.chunk serialized ∧
        AllSeqPresent serialized ∧ AscendingBySeq serialized ∧
        (readTraces (emptyFS.setChunk "/idx/traces/node-sig/0-0"
            (ChunkFile.chunk [traceAt 1 3, traceAt 2 9])) "/idx/traces/node-sig/0-0" = none →
          serialized = [traceAt 3 5, traceAt 4 12]) ∧
        (∀ existing, readTraces (emptyFS.setChunk "/idx/traces/node-sig/0-0"
            (ChunkFile.chunk [traceAt 1 3, traceAt 2 9])) "/idx/traces/node-sig/0-0"
              = some existing →
          mergeTraces existing [traceAt 3 5, traceAt 4 12] = some serialized)) :=
  writeChunk_serializes_ascending demoEnv
    (emptyFS.setChunk "/idx/traces/node-sig/0-0" (ChunkFile.chunk [traceAt 1 3, traceAt 2 9]))
    "/idx/traces/node-sig/0-0" [traceAt 3 5, traceAt 4 12]
    (by
      intro existing h
      have he : ChunkFile.chunk [traceAt 1 3, traceAt 2 9] = ChunkFile.chunk existing := h
      injection he with he
      subst he
      exact ⟨by unfold AllSeqPresent; decide, by unfold AscendingBySeq; decide⟩)
    (by unfold AllSeqPresent; decide) (by unfold AscendingBySeq; decide)

/-- C5 (defect in the code, the one of C3). A chunk with sequence number 3
receives a new trace with sequence number 5. Merging a second copy of that
trace, equal in every field and decoded into a fresh message, does not leave
the chunk unchanged: the pointers differ, the copy is inserted, and the chunk
grows from two traces to three. -/
theorem mergeTraces_second_merge_grows :
    mergeTraces [traceAt 1 3] [traceAt 2 5] = some [traceAt 1 3, traceAt 2 5] ∧
    (traceAt 3 5).NodeId = (traceAt 2 5).NodeId ∧
    (traceAt 3 5).AnonymizationSignature = (traceAt 2 5).AnonymizationSignature ∧
    (traceAt 3 5).ProcessStartTimeMicroseconds = (traceAt 2 5).ProcessStartTimeMicroseconds ∧
    (traceAt 3 5).seq = (traceAt 2 5).seq ∧
    mergeTraces [traceAt 1 3, traceAt 2 5] [traceAt 3 5]
      = some [traceAt 1 3, traceAt 3 5, traceAt 2 5] := by
  decide

/-! ## Chunk paths -/

theorem plain_of_minus (a b : List Char) (ha : '/' ∉ a) (hb : '/' ∉ b) :
    PlainElem (a ++ '-' :: b) := by
  have hmem : '-' ∈ a ++ '-' :: b := by simp
  refine ⟨?_, ?_, ?_, ?_⟩
  · intro h
    rcases List.mem_append.mp h with h | h
    · exact ha h
    · rcases List.mem_cons.mp h with h | h
      · revert h; decide
      · exact hb h
  · simp
  · intro h; rw [h] at hmem; revert hmem; decide
  · intro h; rw [h] at hmem; revert hmem; decide

theorem decimal_no_slash (s : List Char) (h : IsDecimal s) : '/' ∉ s := by
  obtain ⟨pre, hs, _, hd⟩ := h
  have hp : '/' ∉ pre := fun hm => isDecDigit_ne_slash (hd _ hm) rfl
  rcases hs with rfl | rfl
  · exact hp
  · intro hm
    rcases List.mem_cons.mp hm with h | h
    · revert h; decide
    · exact hp h

theorem indexedChunkPath_of_chunkId (indexPath : String) (t : Trace) (c : ChunkId)
    (h : chunkId t = some c) :
    indexedChunkPath indexPath t = some (filepathJoin [indexPath, "traces",
      c.node ++ "-" ++ c.signature, toString c.processStart ++ "-" ++ toString c.bucket]) := by
  unfold chunkId at h
  unfold indexedChunkPath
  cases hn : t.NodeId with
  | none => simp [hn] at h
  | some n =>
    cases hp : t.ProcessStartTimeMicroseconds with
    | none => simp [hn, hp] at h
    | some start =>
      cases hs : t.SequenceNumber with
      | none => simp [hn, hp, hs] at h
      | some sn =>
        simp only [hn, hp, hs, Option.some.injEq] at h
        subst h
        cases t.AnonymizationSignature <;> rfl

theorem chunk_elems_plain (c : ChunkId) (hn : '/' ∉ c.node.data)
    (hs : '/' ∉ c.signature.data) :
    PlainElem (c.node ++ "-" ++ c.signature).data ∧
      PlainElem (toString c.processStart ++ "-" ++ toString c.bucket).data := by
  constructor
  · have : (c.node ++ "-" ++ c.signature).data = c.node.data ++ '-' :: c.signature.data := by
      simp [String.data_append]
    rw [this]
    exact plain_of_minus _ _ hn hs
  · have : (toString c.processStart ++ "-" ++ toString c.bucket).data
        = (toString c.processStart).data ++ '-' :: (toString c.bucket).data := by
      simp [String.data_append]
    rw [this]
    exact plain_of_minus _ _ (decimal_no_slash _ (intToString_isDecimal _))
      (decimal_no_slash _ (intToString_isDecimal _))

/-- C6 (as stated, false). `filepath.Join` cleans the path it joins. With the
node id `../../etc` the chunk path leaves the index root; with the empty
index root it is relative, and with the root `/idx/` or `/` the separator is
not doubled: in none of these cases is the result the string
`<index_root>/traces/<node_id>-<signature>/<process_start>-<bucket>`. -/
theorem indexedChunkPath_not_literal :
    indexedChunkPath "/idx" ⟨some "../../etc", some "sig", some 0, some ⟨0, 0⟩⟩
      = some "/etc-sig/0-0" ∧
    indexedChunkPath "/idx" ⟨some "../../etc", some "sig", some 0, some ⟨0, 0⟩⟩
      ≠ some ("/idx" ++ "/traces/" ++ "../../etc" ++ "-" ++ "sig" ++ "/"
          ++ toString (0 : Int) ++ "-" ++ toString (Int.tdiv 0 1000)) ∧
    indexedChunkPath "" (traceAt 1 0) = some "traces/node-sig/0-0" ∧
    indexedChunkPath "" (traceAt 1 0)
      ≠ some ("" ++ "/traces/" ++ "node" ++ "-" ++ "sig" ++ "/"
          ++ toString (0 : Int) ++ "-" ++ toString (Int.tdiv 0 1000)) ∧
    indexedChunkPath "/idx/" (traceAt 1 0) = some "/idx/traces/node-sig/0-0" ∧
    indexedChunkPath "/idx/" (traceAt 1 0)
      ≠ some ("/idx/" ++ "/traces/" ++ "node" ++ "-" ++ "sig" ++ "/"
          ++ toString (0 : Int) ++ "-" ++ toString (Int.tdiv 0 1000)) ∧
    indexedChunkPath "/" (traceAt 1 0) = some "/traces/node-sig/0-0" ∧
    indexedChunkPath "/" (traceAt 1 0)
      ≠ some ("/" ++ "/traces/" ++ "node" ++ "-" ++ "sig" ++ "/"
          ++ toString (0 : Int) ++ "-" ++ toString (Int.tdiv 0 1000)) := by
  decide

/-- C6 (amended). For an index root that is a cleaned path other than `/` and
`.`, and a trace with node id, process start time and sequence number present
whose node id and signature hold no separator, `indexedChunkPath` returns
`<index_root>/traces/<node_id>-<signature>/<process_start>-<bucket>`, where the
signature is the trace's or `unanonymized` when absent and the bucket is the
sequence number divided by 1000 with the quotient truncated, both numbers in
decimal. -/
theorem indexedChunkPath_layout (indexPath : String) (trace : Trace) (nodeId : String)
    (start : Int) (sequenceNumber : Int32Ptr)
    (hn : trace.NodeId = some nodeId)
    (hp : trace.ProcessStartTimeMicroseconds = some start)
    (hs : trace.SequenceNumber = some sequenceNumber)
    (hclean : filepathClean indexPath = indexPath)
    (h1 : indexPath ≠ "/") (h2 : indexPath ≠ ".")
    (hnode : '/' ∉ nodeId.data)
    (hsig : '/' ∉ (trace.AnonymizationSignature.getD "unanonymized").data) :
    indexedChunkPath indexPath trace
      = some (indexPath ++ "/traces/" ++ nodeId ++ "-"
          ++ trace.AnonymizationSignature.getD "unanonymized" ++ "/"
          ++ toString start ++ "-" ++ toString (Int.tdiv sequenceNumber.val 1000)) := by
  have hc : chunkId trace = some ⟨nodeId, trace.AnonymizationSignature.getD "unanonymized",
      start, Int.tdiv sequenceNumber.val 1000⟩ := by
    simp [chunkId, hn, hp, hs]
  have hpath := indexedChunkPath_of_chunkId indexPath trace _ hc
  rw [hpath]
  congr 1
  apply String.ext
  obtain ⟨hx, hy⟩ := chunk_elems_plain
    ⟨nodeId, trace.AnonymizationSignature.getD "unanonymized", start,
      Int.tdiv sequenceNumber.val 1000⟩ hnode hsig
  rw [filepathJoin_data indexPath _ _ hx hy, rootPrefix_of_clean indexPath hclean h1 h2]
  simp [String.data_append]

/-- C6 (amended), at the root `/idx` and a trace of node `node` without a
signature, process start 1300000000000000 and sequence number 2999, and at
the relative root `data/idx` and a trace with the signature `sig` and the
sequence number -1, whose bucket is 0. -/
theorem indexedChunkPath_layout_witness :
    indexedChunkPath "/idx" ⟨some "node", none, some 1300000000000000, some ⟨0, 2999⟩⟩
      = some ("/idx" ++ "/traces/" ++ "node" ++ "-" ++ "unanonymized" ++ "/"
          ++ toString (1300000000000000 : Int) ++ "-" ++ toString (Int.tdiv 2999 1000)) ∧
    "/idx" ++ "/traces/" ++ "node" ++ "-" ++ "unanonymized" ++ "/"
          ++ toString (1300000000000000 : Int) ++ "-" ++ toString (Int.tdiv 2999 1000)
      = "/idx/traces/node-unanonymized/1300000000000000-2" ∧
    indexedChunkPath "data/idx" (traceAt 1 (-1))
      = some ("data/idx" ++ "/traces/" ++ "node" ++ "-" ++ "sig" ++ "/"
          ++ toString (0 : Int) ++ "-" ++ toString (Int.tdiv (-1) 1000)) ∧
    "data/idx" ++ "/traces/" ++ "node" ++ "-" ++ "sig" ++ "/"
          ++ toString (0 : Int) ++ "-" ++ toString (Int.tdiv (-1) 1000)
      = "data/idx/traces/node-sig/0-0" :=
  ⟨indexedChunkPath_layout "/idx"
      ⟨some "node", none, some 1300000000000000, some ⟨0, 2999⟩⟩
      "node" 1300000000000000 ⟨0, 2999⟩ rfl rfl rfl
      (by decide) (by decide) (by decide) (by decide) (by decide),
   by decide,
   indexedChunkPath_layout "data/idx" (traceAt 1 (-1)) "node" 0 ⟨1, -1⟩ rfl rfl rfl
      (by decide) (by decide) (by decide) (by decide) (by decide),
   by decide⟩

/-- C7 (as stated, false). Node `a-b` with signature `c` and node `a` with
signature `b-c` are different ChunkIds with the same chunk path. -/
theorem indexedChunkPath_collision :
    indexedChunkPath "/idx" ⟨some "a-b", some "c", some 0, some ⟨1, 0⟩⟩
      = indexedChunkPath "/idx" ⟨some "a", some "b-c", some 0, some ⟨2, 0⟩⟩ ∧
    indexedChunkPath "/idx" ⟨some "a-b", some "c", some 0, some ⟨1, 0⟩⟩
      = some "/idx/traces/a-b-c/0-0" ∧
    chunkId ⟨some "a-b", some "c", some 0, some ⟨1, 0⟩⟩
      ≠ chunkId ⟨some "a", some "b-c", some 0, some ⟨2, 0⟩⟩ := by
  decide

/-- C7 (amended). Of two traces with node id, process start time and sequence
number present, those with the same ChunkId get the same chunk path under
every index root; and when neither node id holds a `-` or a separator and
neither signature holds a separator, those with the same chunk path have the
same ChunkId. -/
theorem indexedChunkPath_eq_iff_chunkId (indexPath : String) (t1 t2 : Trace)
    (c1 c2 : ChunkId) (h1 : chunkId t1 = some c1) (h2 : chunkId t2 = some c2) :
    (c1 = c2 → indexedChunkPath indexPath t1 = indexedChunkPath indexPath t2) ∧
    ('-' ∉ c1.node.data → '-' ∉ c2.node.data → '/' ∉ c1.node.data → '/' ∉ c2.node.data →
      '/' ∉ c1.signature.data → '/' ∉ c2.signature.data →
      (indexedChunkPath indexPath t1 = indexedChunkPath indexPath t2 ↔ c1 = c2)) := by
  have hp1 := indexedChunkPath_of_chunkId indexPath t1 c1 h1
  have hp2 := indexedChunkPath_of_chunkId indexPath t2 c2 h2
  have hfwd : c1 = c2 → indexedChunkPath indexPath t1 = indexedChunkPath indexPath t2 := by
    intro h
    rw [hp1, hp2, h]
  refine ⟨hfwd, ?_⟩
  intro hm1 hm2 hn1 hn2 hs1 hs2
  refine ⟨?_, hfwd⟩
  intro heq
  rw [hp1, hp2] at heq
  injection heq with heq
  have hdata := congrArg String.data heq
  obtain ⟨hx1, hy1⟩ := chunk_elems_plain c1 hn1 hs1
  obtain ⟨hx2, hy2⟩ := chunk_elems_plain c2 hn2 hs2
  rw [filepathJoin_data indexPath _ _ hx1 hy1, filepathJoin_data indexPath _ _ hx2 hy2] at hdata
  simp only [List.append_assoc, List.append_cancel_left_eq, List.cons_append,
    List.cons.injEq, true_and] at hdata
  obtain ⟨hx, hy⟩ := append_sep_inj '/' _ _ _ _ hx1.1 hx2.1 hdata
  simp only [String.data_append] at hx hy
  have hx' : c1.node.data ++ '-' :: c1.signature.data
      = c2.node.data ++ '-' :: c2.signature.data := by
    simpa using hx
  have hy' : (toString c1.processStart).data ++ '-' :: (toString c1.bucket).data
      = (toString c2.processStart).data ++ '-' :: (toString c2.bucket).data := by
    simpa using hy
  obtain ⟨hnode, hsig⟩ := append_sep_inj '-' _ _ _ _ hm1 hm2 hx'
  obtain ⟨hstart, hbucket⟩ := decimal_sep_inj _ _ _ _ (intToString_isDecimal _)
    (intToString_isDecimal _) hy'
  cases c1
  cases c2
  simp only [ChunkId.mk.injEq]
  exact ⟨String.ext hnode, String.ext hsig, intToString_injective (String.ext hstart),
    intToString_injective (String.ext hbucket)⟩

/-- C7 (amended), at two traces of one chunk, sequence numbers 1001 and 1999. -/
theorem indexedChunkPath_eq_iff_chunkId_witness :
    (chunkId ⟨some "node", none, some 7, some ⟨1, 1001⟩⟩
        = some ⟨"node", "unanonymized", 7, 1⟩ ∧
      chunkId ⟨some "node", some "unanonymized", some 7, some ⟨2, 1999⟩⟩
        = some ⟨"node", "unanonymized", 7, 1⟩) ∧
    (indexedChunkPath "/idx" ⟨some "node", none, some 7, some ⟨1, 1001⟩⟩
        = indexedChunkPath "/idx" ⟨some "node", some "unanonymized", some 7, some ⟨2, 1999⟩⟩ ↔
      (⟨"node", "unanonymized", 7, 1⟩ : ChunkId) = ⟨"node", "unanonymized", 7, 1⟩) :=
  ⟨⟨by decide, by decide⟩,
   (indexedChunkPath_eq_iff_chunkId "/idx" ⟨some "node", none, some 7, some ⟨1, 1001⟩⟩
      ⟨some "node", some "unanonymized", some 7, some ⟨2, 1999⟩⟩
      ⟨"node", "unanonymized", 7, 1⟩ ⟨"node", "unanonymized", 7, 1⟩
      (by decide) (by decide)).2
      (by decide) (by decide) (by decide) (by decide) (by decide) (by decide)⟩

/-! ## Archives -/

/-- C8. When every header of the archive parses, `readTarFile` returns no
archive error, returns the traces of exactly the entries whose payload
decodes, in the order of the entries, and its error map has an error under a
name exactly when an entry of that name fails to decode. -/
theorem readTarFile_headers_parse (env : Env) (items : List TarItem)
    (h : ∀ it ∈ items, ∃ name payload, it = TarItem.entry name payload) :
    (readTarFile env items).tarErr = none ∧
    (readTarFile env items).traces = items.filterMap (decodedTrace env) ∧
    ∀ name, (mapGet (readTarFile env items).traceErrors name).isSome = true ↔
      ∃ payload err, TarItem.entry name payload ∈ items ∧
        readTrace env payload = Except.error err := by
  obtain ⟨h1, h2, h3⟩ := readTarLoop_spec env items h [] []
  refine ⟨h1, by simpa using h2, ?_⟩
  intro name
  have := h3 name
  simpa [mapGet] using this

/-- C8, on an archive whose second of three entries does not decode. -/
theorem readTarFile_headers_parse_witness :
    (readTarFile demoEnv [TarItem.entry "t1" [2, 1000], TarItem.entry "bad" [7],
        TarItem.entry "t0" [1, 0]]).tarErr = none ∧
    (readTarFile demoEnv [TarItem.entry "t1" [2, 1000], TarItem.entry "bad" [7],
        TarItem.entry "t0" [1, 0]]).traces
      = [TarItem.entry "t1" [2, 1000], TarItem.entry "bad" [7],
          TarItem.entry "t0" [1, 0]].filterMap (decodedTrace demoEnv) ∧
    ∀ name, (mapGet (readTarFile demoEnv [TarItem.entry "t1" [2, 1000],
        TarItem.entry "bad" [7], TarItem.entry "t0" [1, 0]]).traceErrors name).isSome = true ↔
      ∃ payload err, TarItem.entry name payload ∈ [TarItem.entry "t1" [2, 1000],
          TarItem.entry "bad" [7], TarItem.entry "t0" [1, 0]] ∧
        readTrace demoEnv payload = Except.error err :=
  readTarFile_headers_parse demoEnv
    [TarItem.entry "t1" [2, 1000], TarItem.entry "bad" [7], TarItem.entry "t0" [1, 0]]
    (by
      intro it hit
      simp only [List.mem_cons, List.mem_singleton, List.not_mem_nil, or_false] at hit
      rcases hit with rfl | rfl | rfl <;> exact ⟨_, _, rfl⟩)

/-! ## Pipeline stages -/

theorem IncludeNodes_eq_filter (records : List Record) (nodes : List String) :
    IncludeNodes records nodes = records.filter (fun r => decide (r.Key.NodeId ∈ nodes)) := by
  induction records with
  | nil => rfl
  | cons r rest ih =>
    by_cases h : r.Key.NodeId ∈ nodes
    · simp [IncludeNodes, h, ih]
    · simp [IncludeNodes, h, ih]

/-- C9 (against the stage as the specification describes it). For an input
store in ascending key order and a list of permitted node ids, the output of
`IncludeNodes` holds a record exactly when the input holds it and its node id
is permitted, is the input with the other records removed (so every such
record occurs once and in its input position relative to the others), and is
again in ascending key order. -/
theorem IncludeNodes_passes_permitted (records : List Record) (nodes : List String)
    (hsorted : AscendingKeys records) :
    (∀ r, r ∈ IncludeNodes records nodes ↔ r ∈ records ∧ r.Key.NodeId ∈ nodes) ∧
    IncludeNodes records nodes = records.filter (fun r => decide (r.Key.NodeId ∈ nodes)) ∧
    (IncludeNodes records nodes).Sublist records ∧
    (∀ r, (IncludeNodes records nodes).count r
      = if r.Key.NodeId ∈ nodes then records.count r else 0) ∧
    AscendingKeys (IncludeNodes records nodes) := by
  have hf := IncludeNodes_eq_filter records nodes
  have hsub : (IncludeNodes records nodes).Sublist records := by
    rw [hf]; exact List.filter_sublist _
  refine ⟨?_, hf, hsub, ?_, ?_⟩
  · intro r
    rw [hf, List.mem_filter]
    simp
  · intro r
    rw [hf]
    by_cases h : r.Key.NodeId ∈ nodes
    · rw [List.count_filter (by simpa using h), if_pos h]
    · rw [if_neg h]
      apply List.count_eq_zero_of_not_mem
      rw [List.mem_filter]
      simp [h]
  · exact List.Pairwise.sublist hsub hsorted

/-- C9, on the stores of `ExampleIncludeNodes` and
`ExampleIncludeNodes_multipleNodes`, with the outputs the examples expect. -/
theorem IncludeNodes_passes_permitted_witness :
    AscendingKeys (IncludeNodes exampleIncludeNodesInput ["node2"]) ∧
    IncludeNodes exampleIncludeNodesInput ["node2"]
      = [makeRecordToInclude "node2" 3, makeRecordToInclude "node2" 4,
         makeRecordToInclude "node2" 5] ∧
    IncludeNodes exampleMultipleNodesInput ["node2", "node4", "node5", "node7"]
      = [makeRecordToInclude "node2" 3, makeRecordToInclude "node2" 4,
         makeRecordToInclude "node2" 5, makeRecordToInclude "node4" 8,
         makeRecordToInclude "node4" 9, makeRecordToInclude "node5" 10,
         makeRecordToInclude "node7" 12] :=
  ⟨(IncludeNodes_passes_permitted exampleIncludeNodesInput ["node2"]
      (by unfold AscendingKeys; decide)).2.2.2.2,
   by decide, by decide⟩

/-- The records section 4.5 describes for the input of `ExampleFilterSessions`
are not the records that example expects: the example also expects the trace
of the session that starts at 30 s, outside the window `[80, 120)`. -/
theorem filterSessionsStated_ne_example :
    filterSessionsStated 80 120 exampleSessionTraces exampleRanges
      = [makeSessionRecord "node" 100000000 2] ∧
    filterSessionsStated 80 120 exampleSessionTraces exampleRanges ≠ exampleFilteredOutput := by
  decide

/-! ## The order of `BySequenceNumber` -/

theorem strLess_iff (a b : String) : strLess a b = true ↔ a < b := by
  unfold strLess
  rw [decide_eq_true_eq, String.lt_iff_toList_lt]
  rfl

theorem sortKey_lt_iff (n1 s1 n2 s2 : String) (p1 q1 p2 q2 : Int) :
    (toLex (n1, toLex (s1, toLex (p1, q1))) : SortKey) < toLex (n2, toLex (s2, toLex (p2, q2)))
      ↔ n1 < n2 ∨ n1 = n2 ∧ (s1 < s2 ∨ s1 = s2 ∧ (p1 < p2 ∨ p1 = p2 ∧ q1 < q2)) := by
  rw [Prod.Lex.lt_iff]
  simp only
  rw [Prod.Lex.lt_iff]
  simp only
  rw [Prod.Lex.lt_iff]

theorem Less_eq_decide (a b : Trace) (ka kb : SortKey) (ha : sortKey a = some ka)
    (hb : sortKey b = some kb) : BySequenceNumber.Less a b = some (decide (ka < kb)) := by
  unfold sortKey at ha hb
  cases han : a.NodeId with
  | none => simp [han] at ha
  | some an =>
  cases has : a.AnonymizationSignature with
  | none => simp [han, has] at ha
  | some asig =>
  cases hap : a.ProcessStartTimeMicroseconds with
  | none => simp [han, has, hap] at ha
  | some ap =>
  cases haq : a.SequenceNumber with
  | none => simp [han, has, hap, haq] at ha
  | some aq =>
  cases hbn : b.NodeId with
  | none => simp [hbn] at hb
  | some bn =>
  cases hbs : b.AnonymizationSignature with
  | none => simp [hbn, hbs] at hb
  | some bsig =>
  cases hbp : b.ProcessStartTimeMicroseconds with
  | none => simp [hbn, hbs, hbp] at hb
  | some bp =>
  cases hbq : b.SequenceNumber with
  | none => simp [hbn, hbs, hbp, hbq] at hb
  | some bq =>
  simp only [han, has, hap, haq, Option.some.injEq] at ha
  simp only [hbn, hbs, hbp, hbq, Option.some.injEq] at hb
  subst ha
  subst hb
  unfold BySequenceNumber.Less
  simp only [han, has, hap, haq, hbn, hbs, hbp, hbq]
  have key := sortKey_lt_iff an asig bn bsig ap aq.val bp bq.val
  by_cases h1 : an < bn
  · have : strLess an bn = true := (strLess_iff _ _).2 h1
    simp [this, key, h1]
  · have hs1 : ¬ strLess an bn = true := fun h => h1 ((strLess_iff _ _).1 h)
    by_cases e1 : an = bn
    · subst e1
      by_cases h2 : asig < bsig
      · have : strLess asig bsig = true := (strLess_iff _ _).2 h2
        simp [hs1, this, key, h2]
      · have hs2 : ¬ strLess asig bsig = true := fun h => h2 ((strLess_iff _ _).1 h)
        by_cases e2 : asig = bsig
        · subst e2
          by_cases h3 : ap < bp
          · simp [hs1, hs2, key, h3]
          · by_cases e3 : ap = bp
            · subst e3
              simp [hs1, hs2, key]
            · simp [hs1, hs2, key, h1, h2, h3, e3]
        · simp [hs1, hs2, key, h1, h2, e2]
    · simp [hs1, key, h1, e1]

/-- C13. For traces with node id, signature, process start time and sequence
number present, `Less` returns, and it returns true exactly when the tuple of
the first trace is smaller than that of the second in lexicographic order; it
is irreflexive and transitive, and of two traces with different tuples one is
less than the other. -/
theorem BySequenceNumber_Less_strict_total (a b c : Trace) (ka kb kc : SortKey)
    (ha : sortKey a = some ka) (hb : sortKey b = some kb) (hc : sortKey c = some kc) :
    BySequenceNumber.Less a b = some (decide (ka < kb)) ∧
    (BySequenceNumber.Less a b = some true ↔ ka < kb) ∧
    BySequenceNumber.Less a a = some false ∧
    (BySequenceNumber.Less a b = some true → BySequenceNumber.Less b c = some true →
      BySequenceNumber.Less a c = some true) ∧
    (ka ≠ kb →
      BySequenceNumber.Less a b = some true ∨ BySequenceNumber.Less b a = some true) := by
  have hab := Less_eq_decide a b ka kb ha hb
  have hba := Less_eq_decide b a kb ka hb ha
  have hbc := Less_eq_decide b c kb kc hb hc
  have hac := Less_eq_decide a c ka kc ha hc
  have haa := Less_eq_decide a a ka ka ha ha
  refine ⟨hab, ?_, ?_, ?_, ?_⟩
  · rw [hab]; simp
  · rw [haa]; simp
  · rw [hab, hbc, hac]
    simp only [Option.some.injEq, decide_eq_true_eq]
    exact fun h1 h2 => lt_trans h1 h2
  · intro hne
    rw [hab, hba]
    simp only [Option.some.injEq, decide_eq_true_eq]
    rcases lt_trichotomy ka kb with h | h | h
    · exact Or.inl h
    · exact absurd h hne
    · exact Or.inr h

/-- C13, at three traces of one node, signature and process start with the
sequence numbers 3, 5 and 9. -/
theorem BySequenceNumber_Less_strict_total_witness :
    (BySequenceNumber.Less (traceAt 1 3) (traceAt 2 5) = some true ↔
      (toLex ("node", toLex ("sig", toLex ((0 : Int), (3 : Int)))) : SortKey)
        < toLex ("node", toLex ("sig", toLex ((0 : Int), (5 : Int))))) ∧
    BySequenceNumber.Less (traceAt 1 3) (traceAt 2 5) = some true ∧
    BySequenceNumber.Less (traceAt 2 5) (traceAt 1 3) = some false ∧
    BySequenceNumber.Less (traceAt 1 3) (traceAt 1 3) = some false :=
  ⟨(BySequenceNumber_Less_strict_total (traceAt 1 3) (traceAt 2 5) (traceAt 3 9)
      (toLex ("node", toLex ("sig", toLex (0, 3))))
      (toLex ("node", toLex ("sig", toLex (0, 5))))
      (toLex ("node", toLex ("sig", toLex (0, 9)))) rfl rfl rfl).2.1,
   by decide, by decide, by decide⟩

/-! ## Runs of the indexer -/

/-- C12 (defect in the code). The archives `/tars/a.tar` and `/tars/b.tar` each
hold one trace of the same chunk, with sequence numbers 5 and 3. Each archive
is sorted on its own and the pending traces are kept across archives, so the
single `writeChunk` call of the run receives the list 5, 3, which is not
ascending, and with no chunk on disk that list becomes the chunk. -/
theorem IndexTraces_pending_not_ascending :
    (IndexTraces twoArchiveEnv emptyFS "/tars" "/idx").map
        (fun st => (st.events, st.fs.chunks "/idx/traces/node-sig/0-0"))
      = some ([Event.wrote "/idx/traces/node-sig/0-0" [traceAt 1 5, traceAt 2 3] true,
               Event.linked "/tars/a.tar" "/idx/tarballs/a.tar" true,
               Event.linked "/tars/b.tar" "/idx/tarballs/b.tar" true],
              ChunkFile.chunk [traceAt 1 5, traceAt 2 3]) ∧
    [traceAt 1 5, traceAt 2 3].map seqVal = [5, 3] ∧
    ¬ AscendingBySeq [traceAt 1 5, traceAt 2 3] := by
  refine ⟨by decide, by decide, ?_⟩
  unfold AscendingBySeq
  decide

/-- C14 (defect in the code). One archive is enumerated and its marker exists
with another target. The scan counts it once as an invalid link, and the
second loop checks the link again and counts it a second time:
`tars_skipped_invalid_link` ends at 2 for one such archive. -/
theorem IndexTraces_counts_invalid_link_twice :
    staleLinkFS.links (indexedTarballPath "/idx" "/tars/a.tar") = some "/old/a.tar" ∧
    (scanTars "/idx" staleLinkFS ["/tars/a.tar"] {} []).1.tarsInvalidLink = 1 ∧
    (IndexTraces demoEnv staleLinkFS "/tars" "/idx").map
        (fun st => (st.counters.tarsScanned, st.counters.tarsSkipped,
          st.counters.tarsInvalidLink))
      = some (1, 0, 2) := by
  decide

/-! ## The pipeline `LookupsPerDevice` -/

theorem aRecordEvents_filter (rs : List DnsARecord) :
    (rs.filter (fun r => !r.Anonymized)).flatMap aRecordEvents = rs.flatMap aRecordEvents := by
  induction rs with
  | nil => rfl
  | cons r rest ih =>
    cases h : r.Anonymized
    · simp [List.filter_cons, h, ih]
    · simp [List.filter_cons, h, ih, aRecordEvents]

theorem cnameRecordEvents_redact (rs : List DnsCnameRecord) :
    ((rs.filter (fun r => !(r.DomainAnonymized && r.CnameAnonymized))).map (fun r =>
      { r with Domain := if r.DomainAnonymized then "" else r.Domain,
               Cname := if r.CnameAnonymized then "" else r.Cname })).flatMap cnameRecordEvents
      = rs.flatMap cnameRecordEvents := by
  induction rs with
  | nil => rfl
  | cons r rest ih =>
    simp only [Bool.not_and] at ih ⊢
    cases hd : r.DomainAnonymized <;> cases hc : r.CnameAnonymized <;>
      simp [List.filter_cons, hd, hc, ih, cnameRecordEvents]

theorem lookupEvents_redact (t : DnsTrace) : lookupEvents (redact t) = lookupEvents t := by
  unfold lookupEvents redact
  simp only
  rw [aRecordEvents_filter, cnameRecordEvents_redact]

theorem traceLookups_redact (resolve : TraceKey → Int → Option String)
    (hour : TraceKey → Int) (keep : String → Bool) (ranges : List RangeRecord)
    (record : TraceKey × DnsTrace) :
    traceLookups resolve hour keep ranges (record.1, redact record.2)
      = traceLookups resolve hour keep ranges record := by
  unfold traceLookups
  simp only [lookupEvents_redact]

theorem lookupEvents_named (t : DnsTrace) (e : Int × String) (h : e ∈ lookupEvents t) :
    NamedOpenly t e.2 := by
  unfold lookupEvents at h
  rcases List.mem_append.mp h with h | h
  · obtain ⟨r, hr, he⟩ := List.mem_flatMap.mp h
    left
    unfold aRecordEvents at he
    cases ha : r.Anonymized
    · simp only [ha, Bool.false_eq_true, if_false, List.mem_singleton] at he
      exact ⟨r, hr, ha, by rw [he]⟩
    · simp [ha] at he
  · obtain ⟨r, hr, he⟩ := List.mem_flatMap.mp h
    right
    refine ⟨r, hr, ?_⟩
    unfold cnameRecordEvents at he
    rcases List.mem_append.mp he with he | he
    · left
      cases hd : r.DomainAnonymized
      · simp only [hd, Bool.false_eq_true, if_false, List.mem_singleton] at he
        exact ⟨rfl, by rw [he]⟩
      · simp [hd] at he
    · right
      cases hc : r.CnameAnonymized
      · simp only [hc, Bool.false_eq_true, if_false, List.mem_singleton] at he
        exact ⟨rfl, by rw [he]⟩
      · simp [hc] at he

theorem lookupEvents_of_allAnonymized (t : DnsTrace) (h : AllAnonymized t) :
    lookupEvents t = [] := by
  obtain ⟨ha, hc⟩ := h
  unfold lookupEvents
  have h1 : t.ARecord.flatMap aRecordEvents = [] := by
    rw [List.flatMap_eq_nil_iff]
    intro r hr
    simp [aRecordEvents, ha r hr]
  have h2 : t.CnameRecord.flatMap cnameRecordEvents = [] := by
    rw [List.flatMap_eq_nil_iff]
    intro r hr
    simp [cnameRecordEvents, (hc r hr).1, (hc r hr).2]
  rw [h1, h2]
  rfl

theorem mem_addCount {K : Type} [DecidableEq K] (less : K → K → Bool) (key : K)
    (counts : List (K × Int)) (k : K) (n : Int) (h : (k, n) ∈ addCount less key counts) :
    k = key ∨ ∃ m, (k, m) ∈ counts := by
  induction counts with
  | nil =>
    simp only [addCount, List.mem_singleton, Prod.mk.injEq] at h
    exact Or.inl h.1
  | cons c rest ih =>
    obtain ⟨k0, n0⟩ := c
    unfold addCount at h
    split at h
    · rename_i heq
      rcases List.mem_cons.mp h with h | h
      · injection h with h1 _
        right; exact ⟨n0, by rw [h1]; exact List.mem_cons_self _ _⟩
      · right; exact ⟨n, List.mem_cons_of_mem _ h⟩
    · split at h
      · rcases List.mem_cons.mp h with h | h
        · injection h with h1 _
          exact Or.inl h1
        · right; exact ⟨n, h⟩
      · rcases List.mem_cons.mp h with h | h
        · right; exact ⟨n, by rw [h]; exact List.mem_cons_self _ _⟩
        · rcases ih h with h | ⟨m, hm⟩
          · exact Or.inl h
          · right; exact ⟨m, List.mem_cons_of_mem _ hm⟩

theorem mem_foldl_addCount {K : Type} [DecidableEq K] (less : K → K → Bool) (keys : List K) :
    ∀ (counts : List (K × Int)) (k : K) (n : Int),
      (k, n) ∈ keys.foldl (fun counts key => addCount less key counts) counts →
      k ∈ keys ∨ ∃ m, (k, m) ∈ counts := by
  induction keys with
  | nil => intro counts k n h; exact Or.inr ⟨n, h⟩
  | cons key rest ih =>
    intro counts k n h
    rw [List.foldl_cons] at h
    rcases ih _ k n h with h | ⟨m, hm⟩
    · exact Or.inl (List.mem_cons_of_mem _ h)
    · rcases mem_addCount less key counts k m hm with h | h
      · left; rw [h]; exact List.mem_cons_self _ _
      · exact Or.inr h

theorem mem_countKeys {K : Type} [DecidableEq K] (less : K → K → Bool) (keys : List K)
    (k : K) (n : Int) (h : (k, n) ∈ countKeys less keys) : k ∈ keys := by
  rcases mem_foldl_addCount less keys [] k n h with h | ⟨m, hm⟩
  · exact h
  · cases hm

theorem lookup_named (resolve : TraceKey → Int → Option String) (hour : TraceKey → Int)
    (keep : String → Bool) (ranges : List RangeRecord) (traces : List (TraceKey × DnsTrace))
    (l : Lookup) (h : l ∈ traces.flatMap (traceLookups resolve hour keep ranges)) :
    ∃ record ∈ traces, NamedOpenly record.2 l.domain := by
  obtain ⟨record, hrec, hl⟩ := List.mem_flatMap.mp h
  refine ⟨record, hrec, ?_⟩
  unfold traceLookups at hl
  split at hl
  · obtain ⟨e, he, hmap⟩ := List.mem_filterMap.mp hl
    split at hmap
    · cases hres : resolve record.1 e.1 with
      | none => simp [hres] at hmap
      | some mac =>
        simp only [hres, Option.map_some', Option.some.injEq] at hmap
        rw [← hmap]
        exact lookupEvents_named record.2 e he
    · cases hmap
  · cases hl

/-- C11 (against the pipeline as the specification describes it). Whatever the
address resolution, the hour bucket and the set of counted names: every key
of `lookups_per_device` and of `lookups_per_device_per_hour` carries a name
that some trace holds as a name that is not anonymized; both outputs stay the
same when the anonymized A records are removed and the anonymized names of
the CNAME records are removed or blanked, so no count depends on them; and
when every name of every trace is anonymized both outputs are empty. -/
theorem lookupsPipeline_drops_anonymized (resolve : TraceKey → Int → Option String)
    (hour : TraceKey → Int) (keep : String → Bool) (ranges : List RangeRecord)
    (traces : List (TraceKey × DnsTrace)) :
    (∀ key n, (key, n) ∈ (lookupsPipeline resolve hour keep ranges traces).lookupsPerDevice →
      ∃ record ∈ traces, NamedOpenly record.2 key.2.2) ∧
    (∀ key n,
      (key, n) ∈ (lookupsPipeline resolve hour keep ranges traces).lookupsPerDevicePerHour →
      ∃ record ∈ traces, NamedOpenly record.2 key.2.2.1) ∧
    lookupsPipeline resolve hour keep ranges (traces.map (fun r => (r.1, redact r.2)))
      = lookupsPipeline resolve hour keep ranges traces ∧
    ((∀ record ∈ traces, AllAnonymized record.2) →
      lookupsPipeline resolve hour keep ranges traces = ⟨[], []⟩) := by
  refine ⟨?_, ?_, ?_, ?_⟩
  · intro key n h
    have hk := mem_countKeys _ _ key n h
    obtain ⟨l, hl, hkey⟩ := List.mem_map.mp hk
    obtain ⟨record, hrec, hnamed⟩ := lookup_named resolve hour keep ranges traces l hl
    refine ⟨record, hrec, ?_⟩
    rw [← hkey]
    exact hnamed
  · intro key n h
    have hk := mem_countKeys _ _ key n h
    obtain ⟨l, hl, hkey⟩ := List.mem_map.mp hk
    obtain ⟨record, hrec, hnamed⟩ := lookup_named resolve hour keep ranges traces l hl
    refine ⟨record, hrec, ?_⟩
    rw [← hkey]
    exact hnamed
  · have hflat : (traces.map (fun r => (r.1, redact r.2))).flatMap
        (traceLookups resolve hour keep ranges)
        = traces.flatMap (traceLookups resolve hour keep ranges) := by
      induction traces with
      | nil => rfl
      | cons r rest ih =>
        simp only [List.map_cons, List.flatMap_cons, ih, traceLookups_redact]
    unfold lookupsPipeline
    simp only [hflat]
  · intro hall
    have hflat : traces.flatMap (traceLookups resolve hour keep ranges) = [] := by
      rw [List.flatMap_eq_nil_iff]
      intro record hrec
      unfold traceLookups
      rw [lookupEvents_of_allAnonymized record.2 (hall record hrec)]
      simp
    unfold lookupsPipeline
    simp only [hflat]
    rfl

/-- C11, on the input of `ExampleLookupsPerDevice_anonymization` with the
address resolution and hour bucket of section 4.6: both outputs are empty, as
the example expects. -/
theorem lookupsPipeline_drops_anonymized_witness :
    LookupsPerDevice [(⟨"node1", "anon1", 0, 0⟩, exampleAnonymizedTrace)]
        [⟨⟨"node1", "anon1", 0, 0⟩, ⟨"node1", "anon1", 0, 0⟩⟩]
        [(⟨"node1", "anon1", 0, 0, 0⟩, "mac1")] = ⟨[], []⟩ ∧
    LookupsPerDevice [(⟨"node1", "anon1", 0, 0⟩, exampleCnameTrace)]
        [⟨⟨"node1", "anon1", 0, 0⟩, ⟨"node1", "anon1", 0, 0⟩⟩]
        [(⟨"node1", "anon1", 0, 0, 0⟩, "mac1")]
      = ⟨[(("node1", "mac1", "m.domain1"), 1), (("node1", "mac1", "m.domain2"), 1)],
         [(("node1", "mac1", "m.domain1", 0), 1), (("node1", "mac1", "m.domain2", 0), 1)]⟩ :=
  ⟨(lookupsPipeline_drops_anonymized
      (resolveExact [(⟨"node1", "anon1", 0, 0, 0⟩, "mac1")]) hourOfSession (fun _ => true)
      [⟨⟨"node1", "anon1", 0, 0⟩, ⟨"node1", "anon1", 0, 0⟩⟩]
      [(⟨"node1", "anon1", 0, 0⟩, exampleAnonymizedTrace)]).2.2.2
      (by
        intro record hrec
        rw [List.mem_singleton] at hrec
        subst hrec
        unfold AllAnonymized exampleAnonymizedTrace
        decide),
   by decide⟩

/-! ## Every decoded trace reaches one `writeChunk` call -/

theorem writtenTraces_append (ev1 ev2 : List Event) :
    writtenTraces (ev1 ++ ev2) = writtenTraces ev1 ++ writtenTraces ev2 := by
  induction ev1 with
  | nil => rfl
  | cons e rest ih =>
    cases e with
    | wrote p ts w => simp [writtenTraces, ih]
    | linked a b c => simp [writtenTraces, ih]

theorem installMarkers_events (env : Env) (indexPath : String) (tars : List String) :
    ∀ (fs : FS) (c : Counters) (ev : List Event),
      writtenTraces (installMarkers env indexPath tars fs c ev).2.2 = writtenTraces ev ∧
      ∀ p ts w, Event.wrote p ts w ∈ (installMarkers env indexPath tars fs c ev).2.2 →
        Event.wrote p ts w ∈ ev := by
  induction tars with
  | nil => intro fs c ev; exact ⟨rfl, fun _ _ _ h => h⟩
  | cons tar rest ih =>
    intro fs c ev
    simp only [installMarkers]
    obtain ⟨h1, h2⟩ := ih
      (if ((fs.links (indexedTarballPath indexPath tar)).isNone &&
          env.symlinkOk (indexedTarballPath indexPath tar)) = true then
        fs.setLink (indexedTarballPath indexPath tar) tar else fs)
      _ (ev ++ [Event.linked tar (indexedTarballPath indexPath tar)
        ((fs.links (indexedTarballPath indexPath tar)).isNone &&
          env.symlinkOk (indexedTarballPath indexPath tar))])
    refine ⟨?_, ?_⟩
    · rw [h1, writtenTraces_append]
      simp [writtenTraces]
    · intro p ts w h
      have := h2 p ts w h
      rcases List.mem_append.mp this with h | h
      · exact h
      · rw [List.mem_singleton] at h
        cases h

theorem flushChunk_spec (env : Env) (indexPath : String) (st st' : IndexState)
    (chunkPath : String) (h : flushChunk env indexPath st chunkPath = some st') :
    st'.currentTraces = st.currentTraces ∧ st'.currentChunkPath = st.currentChunkPath ∧
    writtenTraces st'.events = writtenTraces st.events ++ st.currentTraces ∧
    ∀ p ts w, Event.wrote p ts w ∈ st'.events →
      Event.wrote p ts w ∈ st.events ∨ (p = chunkPath ∧ ts = st.currentTraces) := by
  unfold flushChunk at h
  cases hw : writeChunk env st.fs chunkPath st.currentTraces with
  | none => rw [hw] at h; cases h
  | some r =>
    obtain ⟨⟨written, tracesRead⟩, fs⟩ := r
    rw [hw] at h
    simp only at h
    have hbase : writtenTraces (st.events ++ [Event.wrote chunkPath st.currentTraces written])
        = writtenTraces st.events ++ st.currentTraces := by
      rw [writtenTraces_append]; simp [writtenTraces]
    have hmem : ∀ p ts w,
        Event.wrote p ts w ∈ st.events ++ [Event.wrote chunkPath st.currentTraces written] →
        Event.wrote p ts w ∈ st.events ∨ (p = chunkPath ∧ ts = st.currentTraces) := by
      intro p ts w hm
      rcases List.mem_append.mp hm with hm | hm
      · exact Or.inl hm
      · rw [List.mem_singleton] at hm
        injection hm with h1 h2 _
        exact Or.inr ⟨h1, h2⟩
    cases written with
    | false =>
      simp only [Bool.false_eq_true, if_false, Option.some.injEq] at h
      subst h
      exact ⟨rfl, rfl, hbase, hmem⟩
    | true =>
      simp only [if_true, Option.some.injEq] at h
      subst h
      obtain ⟨h1, h2⟩ := installMarkers_events env indexPath st.currentTars fs
        { st.counters with chunksIndexed := st.counters.chunksIndexed + 1,
                           tracesIndexed := st.counters.tracesIndexed + st.currentTraces.length,
                           tarsIndexed := st.counters.tarsIndexed + st.currentTars.length }
        (st.events ++ [Event.wrote chunkPath st.currentTraces true])
      refine ⟨rfl, rfl, ?_, ?_⟩
      · simp only
        rw [h1, hbase]
      · intro p ts w hm
        exact hmem p ts w (h2 p ts w hm)

theorem walkTrace_spec (env : Env) (indexPath : String) (st st' : IndexState) (t : Trace)
    (hp : PendingAtPath indexPath st) (hw : WrittenAtPath indexPath st.events)
    (h : walkTrace env indexPath st t = some st') :
    PendingAtPath indexPath st' ∧ WrittenAtPath indexPath st'.events ∧
    writtenTraces st'.events ++ st'.currentTraces
      = writtenTraces st.events ++ st.currentTraces ++ [t] := by
  unfold walkTrace at h
  cases hpath : indexedChunkPath indexPath t with
  | none => rw [hpath] at h; cases h
  | some chunkPath =>
    rw [hpath] at h
    simp only at h
    by_cases hcond : st.currentChunkPath = none ∨ st.currentChunkPath ≠ some chunkPath
    · rw [if_pos hcond] at h
      cases hcur : st.currentChunkPath with
      | none =>
        rw [hcur] at h
        simp only [Option.map_some', Option.some.injEq] at h
        subst h
        have hempty : st.currentTraces = [] := by
          cases hl : st.currentTraces with
          | nil => rfl
          | cons x xs =>
            obtain ⟨p, hp1, _⟩ := hp x (by rw [hl]; exact List.mem_cons_self _ _)
            rw [hcur] at hp1
            cases hp1
        refine ⟨?_, hw, ?_⟩
        · intro x hx
          simp only [List.nil_append, List.mem_singleton] at hx
          subst hx
          exact ⟨chunkPath, rfl, hpath⟩
        · simp [hempty]
      | some current =>
        rw [hcur] at h
        simp only at h
        cases hf : flushChunk env indexPath st current with
        | none => rw [hf] at h; cases h
        | some s =>
          rw [hf] at h
          simp only [Option.map_some', Option.some.injEq] at h
          subst h
          obtain ⟨_, _, hwt, hmem⟩ := flushChunk_spec env indexPath st s current hf
          refine ⟨?_, ?_, ?_⟩
          · intro x hx
            simp only [List.nil_append, List.mem_singleton] at hx
            subst hx
            exact ⟨chunkPath, rfl, hpath⟩
          · intro p ts w hm x hx
            rcases hmem p ts w hm with hm | ⟨rfl, rfl⟩
            · exact hw p ts w hm x hx
            · obtain ⟨q, hq1, hq2⟩ := hp x hx
              rw [hcur] at hq1
              injection hq1 with hq1
              rw [hq2, hq1]
          · simp [hwt]
    · rw [if_neg hcond] at h
      simp only [Option.map_some', Option.some.injEq] at h
      subst h
      have hcur : st.currentChunkPath = some chunkPath := by
        by_contra hne
        exact hcond (Or.inr hne)
      refine ⟨?_, hw, ?_⟩
      · intro x hx
        simp only [List.mem_append, List.mem_singleton] at hx
        rcases hx with hx | hx
        · exact hp x hx
        · subst hx
          exact ⟨chunkPath, hcur, hpath⟩
      · simp

theorem walkTraces_spec (env : Env) (indexPath : String) (ts : List Trace) :
    ∀ (st st' : IndexState), PendingAtPath indexPath st → WrittenAtPath indexPath st.events →
      walkTraces env indexPath st ts = some st' →
      PendingAtPath indexPath st' ∧ WrittenAtPath indexPath st'.events ∧
      writtenTraces st'.events ++ st'.currentTraces
        = writtenTraces st.events ++ st.currentTraces ++ ts := by
  induction ts with
  | nil =>
    intro st st' hp hw h
    simp only [walkTraces, Option.some.injEq] at h
    subst h
    exact ⟨hp, hw, by simp⟩
  | cons t rest ih =>
    intro st st' hp hw h
    unfold walkTraces at h
    cases h1 : walkTrace env indexPath st t with
    | none => rw [h1] at h; cases h
    | some st1 =>
      rw [h1] at h
      simp only at h
      obtain ⟨hp1, hw1, he1⟩ := walkTrace_spec env indexPath st st1 t hp hw h1
      obtain ⟨hp2, hw2, he2⟩ := ih st1 st' hp1 hw1 h
      exact ⟨hp2, hw2, by rw [he2, he1]; simp⟩

theorem insertBack_perm (x : Trace) :
    ∀ (l r : List Trace), insertBack x l = some r → r.Perm (x :: l) := by
  intro l
  induction l with
  | nil =>
    intro r h
    simp only [insertBack, Option.some.injEq] at h
    subst h
    exact List.Perm.refl _
  | cons y ys ih =>
    intro r h
    unfold insertBack at h
    cases hl : BySequenceNumber.Less x y with
    | none => rw [hl] at h; cases h
    | some b =>
      rw [hl] at h
      cases b with
      | false =>
        simp only [Option.some.injEq] at h
        subst h
        exact List.Perm.refl _
      | true =>
        simp only at h
        cases hi : insertBack x ys with
        | none => rw [hi] at h; cases h
        | some r' =>
          rw [hi] at h
          simp only [Option.map_some', Option.some.injEq] at h
          subst h
          exact ((ih r' hi).cons y).trans (List.Perm.swap x y ys)

theorem sortLoop_perm (l : List Trace) :
    ∀ (acc r : List Trace), sortLoop acc l = some r → r.Perm (acc ++ l) := by
  induction l with
  | nil =>
    intro acc r h
    simp only [sortLoop, Option.some.injEq] at h
    subst h
    simp
  | cons x rest ih =>
    intro acc r h
    unfold sortLoop at h
    cases hi : insertBack x acc with
    | none => rw [hi] at h; cases h
    | some acc' =>
      rw [hi] at h
      simp only at h
      have h1 := ih acc' r h
      have h2 := insertBack_perm x acc acc' hi
      refine h1.trans ?_
      refine (h2.append_right rest).trans ?_
      simpa using (@List.perm_middle Trace x acc rest).symm

theorem sortTraces_perm (l r : List Trace) (h : sortTraces l = some r) : r.Perm l := by
  have := sortLoop_perm l [] r h
  simpa using this

theorem indexTar_spec (env : Env) (indexPath : String) (st st' : IndexState) (tarFile : String)
    (hp : PendingAtPath indexPath st) (hw : WrittenAtPath indexPath st.events)
    (h : indexTar env indexPath st tarFile = some st') :
    PendingAtPath indexPath st' ∧ WrittenAtPath indexPath st'.events ∧
    ∃ walked, walked.Perm (decodedOf env indexPath st tarFile) ∧
      writtenTraces st'.events ++ st'.currentTraces
        = writtenTraces st.events ++ st.currentTraces ++ walked := by
  unfold indexTar at h
  simp only at h
  by_cases hlink : st.fs.links (indexedTarballPath indexPath tarFile) = some tarFile
  · rw [if_pos hlink] at h
    have hd : decodedOf env indexPath st tarFile = [] := by
      unfold decodedOf; rw [if_pos hlink]
    rw [hd]
    simp only [Option.some.injEq] at h
    subst h
    exact ⟨hp, hw, [], List.Perm.refl _, by simp⟩
  · rw [if_neg hlink] at h
    cases hopen : env.openTar tarFile with
    | none =>
      have hd : decodedOf env indexPath st tarFile = [] := by
        unfold decodedOf; rw [if_neg hlink, hopen]
      rw [hd]
      rw [hopen] at h
      simp only [Option.some.injEq] at h
      subst h
      exact ⟨hp, hw, [], List.Perm.refl _, by simp⟩
    | some items =>
      rw [hopen] at h
      simp only at h
      by_cases herr : (readTarFile env items).tarErr.isSome = true
      · have hd : decodedOf env indexPath st tarFile = [] := by
          unfold decodedOf; rw [if_neg hlink, hopen]; simp only; rw [if_pos herr]
        rw [hd]
        rw [if_pos herr] at h
        simp only [Option.some.injEq] at h
        subst h
        exact ⟨hp, hw, [], List.Perm.refl _, by simp⟩
      · have hd : decodedOf env indexPath st tarFile = (readTarFile env items).traces := by
          unfold decodedOf; rw [if_neg hlink, hopen]; simp only; rw [if_neg herr]
        rw [hd]
        rw [if_neg herr] at h
        cases hsort : sortTraces (readTarFile env items).traces with
        | none => rw [hsort] at h; cases h
        | some sorted =>
          rw [hsort] at h
          simp only at h
          split at h
          · cases h
          · rename_i st1 hwalk
            simp only [Option.some.injEq] at h
            subst h
            have key := fun (X : IndexState)
                (hX : walkTraces env indexPath X sorted = some st1)
                (hX1 : PendingAtPath indexPath X) (hX2 : WrittenAtPath indexPath X.events) =>
              walkTraces_spec env indexPath sorted X st1 hX1 hX2 hX
            obtain ⟨hp1, hw1, he1⟩ := key _ hwalk hp hw
            exact ⟨hp1, hw1, sorted, sortTraces_perm _ _ hsort, he1⟩

theorem indexTars_spec (env : Env) (indexPath : String) (tars : List String) :
    ∀ (st st' : IndexState), PendingAtPath indexPath st → WrittenAtPath indexPath st.events →
      indexTars env indexPath st tars = some st' →
      PendingAtPath indexPath st' ∧ WrittenAtPath indexPath st'.events ∧
      (writtenTraces st'.events ++ st'.currentTraces).Perm
        (writtenTraces st.events ++ st.currentTraces ++ decodedInRun env indexPath st tars) := by
  induction tars with
  | nil =>
    intro st st' hp hw h
    simp only [indexTars, Option.some.injEq] at h
    subst h
    exact ⟨hp, hw, by simp [decodedInRun]⟩
  | cons tar rest ih =>
    intro st st' hp hw h
    unfold indexTars at h
    cases h1 : indexTar env indexPath st tar with
    | none => rw [h1] at h; cases h
    | some st1 =>
      rw [h1] at h
      simp only at h
      obtain ⟨hp1, hw1, walked, hperm, he1⟩ := indexTar_spec env indexPath st st1 tar hp hw h1
      obtain ⟨hp2, hw2, he2⟩ := ih st1 st' hp1 hw1 h
      refine ⟨hp2, hw2, he2.trans ?_⟩
      rw [he1]
      have hd : decodedInRun env indexPath st (tar :: rest)
          = decodedOf env indexPath st tar ++ decodedInRun env indexPath st1 rest := by
        rw [decodedInRun, h1]
      rw [hd]
      simp only [List.append_assoc]
      exact List.Perm.append_left _ (List.Perm.append_left _ (hperm.append_right _))

/-- In a run of `IndexTraces` that ends without a panic, the traces given to the
`writeChunk` calls, taken together with their multiplicities, are the decoded
traces of the archives read without an archive error; every call is given
only traces whose `indexedChunkPath` is the chunk path of the call; and the
pending traces all have the current chunk path. -/
theorem IndexTraces_written_spec (env : Env) (fs : FS)
    (tarsPath indexPath : String) (st : IndexState)
    (h : IndexTraces env fs tarsPath indexPath = some st) :
    (writtenTraces st.events).Perm (decodedByRun env fs tarsPath indexPath) ∧
    (∀ chunkPath traces written, Event.wrote chunkPath traces written ∈ st.events →
      ∀ t ∈ traces, indexedChunkPath indexPath t = some chunkPath) ∧
    (∀ t ∈ st.currentTraces, ∃ p, st.currentChunkPath = some p ∧
      indexedChunkPath indexPath t = some p) := by
  unfold IndexTraces at h
  unfold decodedByRun
  cases hglob : env.glob (filepathJoin [tarsPath, "*.tar"]) with
  | none =>
    rw [hglob] at h
    simp only [Option.some.injEq] at h
    subst h
    refine ⟨List.Perm.refl _, ?_, ?_⟩
    · intro p ts w hm; cases hm
    · intro t ht; cases ht
  | some tarFiles =>
    rw [hglob] at h
    simp only at h
    have hp0 : PendingAtPath indexPath
        ⟨fs, (scanTars indexPath fs tarFiles {} []).1, none, [], [], []⟩ := by
      intro t ht; cases ht
    have hw0 : WrittenAtPath indexPath
        (⟨fs, (scanTars indexPath fs tarFiles {} []).1, none, [], [], []⟩ : IndexState).events := by
      intro p ts w hm; cases hm
    cases hrun : indexTars env indexPath
        ⟨fs, (scanTars indexPath fs tarFiles {} []).1, none, [], [], []⟩
        (sortStrings (scanTars indexPath fs tarFiles {} []).2) with
    | none => rw [hrun] at h; cases h
    | some st1 =>
      rw [hrun] at h
      simp only at h
      obtain ⟨hp1, hw1, hperm⟩ := indexTars_spec env indexPath _ _ st1 hp0 hw0 hrun
      simp only [writtenTraces, List.nil_append] at hperm
      by_cases hlen : st1.currentTraces.length > 0
      · rw [if_pos hlen] at h
        cases hcur : st1.currentChunkPath with
        | none => rw [hcur] at h; cases h
        | some current =>
          rw [hcur] at h
          simp only at h
          obtain ⟨ht, hc, hwt, hmem⟩ := flushChunk_spec env indexPath st1 st current h
          refine ⟨?_, ?_, ?_⟩
          · rw [hwt]; exact hperm
          · intro p ts w hm x hx
            rcases hmem p ts w hm with hm | ⟨rfl, rfl⟩
            · exact hw1 p ts w hm x hx
            · obtain ⟨q, hq1, hq2⟩ := hp1 x hx
              rw [hcur] at hq1
              injection hq1 with hq1
              rw [hq2, hq1]
          · intro t htm
            rw [ht] at htm
            rw [hc]
            exact hp1 t htm
      · rw [if_neg hlen] at h
        simp only [Option.some.injEq] at h
        subst h
        have hnil : st1.currentTraces = [] := by
          cases hl : st1.currentTraces with
          | nil => rfl
          | cons x xs => rw [hl] at hlen; simp at hlen
        rw [hnil, List.append_nil] at hperm
        exact ⟨hperm, hw1, hp1⟩

/-! ## Runs that do not panic -/

theorem keyed_fields (t : Trace) (h : Keyed t) :
    ∃ n s p q, t.NodeId = some n ∧ t.AnonymizationSignature = some s ∧
      t.ProcessStartTimeMicroseconds = some p ∧ t.SequenceNumber = some q := by
  unfold Keyed sortKey at h
  cases hn : t.NodeId with
  | none => simp [hn] at h
  | some n =>
    cases hs : t.AnonymizationSignature with
    | none => simp [hn, hs] at h
    | some s =>
      cases hp : t.ProcessStartTimeMicroseconds with
      | none => simp [hn, hs, hp] at h
      | some p =>
        cases hq : t.SequenceNumber with
        | none => simp [hn, hs, hp, hq] at h
        | some q => exact ⟨n, s, p, q, rfl, rfl, rfl, rfl⟩

theorem keyed_seq_present (t : Trace) (h : Keyed t) : t.SequenceNumber.isSome = true := by
  obtain ⟨_, _, _, q, _, _, _, hq⟩ := keyed_fields t h
  rw [hq]; rfl

theorem keyed_chunkPath (indexPath : String) (t : Trace) (h : Keyed t) :
    ∃ p, indexedChunkPath indexPath t = some p := by
  obtain ⟨n, s, p, q, hn, hs, hp, hq⟩ := keyed_fields t h
  unfold indexedChunkPath
  simp only [hn, hp, hq]
  exact ⟨_, rfl⟩

theorem keyed_less (a b : Trace) (ha : Keyed a) (hb : Keyed b) :
    ∃ r, BySequenceNumber.Less a b = some r := by
  unfold Keyed at ha hb
  cases hka : sortKey a with
  | none => rw [hka] at ha; cases ha
  | some ka =>
    cases hkb : sortKey b with
    | none => rw [hkb] at hb; cases hb
    | some kb => exact ⟨_, Less_eq_decide a b ka kb hka hkb⟩

theorem insertBack_total (x : Trace) (hx : Keyed x) :
    ∀ l : List Trace, (∀ t ∈ l, Keyed t) → ∃ r, insertBack x l = some r := by
  intro l
  induction l with
  | nil => intro _; exact ⟨[x], rfl⟩
  | cons y ys ih =>
    intro hl
    obtain ⟨b, hb⟩ := keyed_less x y hx (hl y (List.mem_cons_self _ _))
    obtain ⟨r, hr⟩ := ih (fun t ht => hl t (List.mem_cons_of_mem _ ht))
    unfold insertBack
    rw [hb]
    cases b with
    | false => exact ⟨_, rfl⟩
    | true => exact ⟨y :: r, by simp [hr]⟩

theorem sortLoop_total (l : List Trace) :
    ∀ acc : List Trace, (∀ t ∈ acc, Keyed t) → (∀ t ∈ l, Keyed t) →
      ∃ r, sortLoop acc l = some r := by
  induction l with
  | nil => intro acc _ _; exact ⟨_, rfl⟩
  | cons x rest ih =>
    intro acc hacc hl
    obtain ⟨acc', hins⟩ := insertBack_total x (hl x (List.mem_cons_self _ _)) acc hacc
    have hacc' : ∀ t ∈ acc', Keyed t := by
      intro t ht
      have := (insertBack_perm x acc acc' hins).subset ht
      rcases List.mem_cons.mp this with h | h
      · rw [h]; exact hl x (List.mem_cons_self _ _)
      · exact hacc t h
    obtain ⟨r, hr⟩ := ih acc' hacc' (fun t ht => hl t (List.mem_cons_of_mem _ ht))
    exact ⟨r, by unfold sortLoop; rw [hins]; exact hr⟩

theorem sortTraces_total (l : List Trace) (hl : ∀ t ∈ l, Keyed t) :
    ∃ r, sortTraces l = some r ∧ ∀ t ∈ r, Keyed t := by
  obtain ⟨r, hr⟩ := sortLoop_total l [] (fun _ h => by cases h) hl
  exact ⟨r, hr, fun t ht => hl t ((sortTraces_perm l r hr).subset ht)⟩

theorem sortSearchLoop_total (n : Nat) (f : Nat → Option Bool)
    (hf : ∀ k, k < n → ∃ b, f k = some b) :
    ∀ (fuel i j : Nat), j ≤ n → ∃ r, sortSearchLoop f fuel i j = some r := by
  intro fuel
  induction fuel with
  | zero => intro i j _; exact ⟨i, rfl⟩
  | succ fuel ih =>
    intro i j hj
    unfold sortSearchLoop
    by_cases hlt : i < j
    · rw [if_pos hlt]
      obtain ⟨b, hb⟩ := hf (i + (j - i) / 2) (by omega)
      simp only [hb]
      cases b with
      | false => exact ih _ _ hj
      | true => exact ih _ _ (by omega)
    · rw [if_neg hlt]
      exact ⟨i, rfl⟩

theorem mergeStep_total (existing : List Trace) (trace : Trace)
    (hex : AllSeqPresent existing) (ht : trace.SequenceNumber.isSome = true) :
    ∃ merged, mergeStep existing trace = some merged ∧ AllSeqPresent merged := by
  have hf : ∀ k, k < existing.length → ∃ b, mergePred existing trace k = some b :=
    fun k hk => ⟨_, mergePred_eq existing trace hex ht k hk⟩
  obtain ⟨r, hr⟩ := sortSearchLoop_total existing.length (mergePred existing trace) hf
    existing.length 0 existing.length (Nat.le_refl _)
  unfold mergeStep sortSearch
  rw [hr]
  simp only
  split
  · exact ⟨existing, rfl, hex⟩
  · refine ⟨_, rfl, ?_⟩
    intro t hmem
    rcases List.mem_append.mp hmem with h | h
    · exact hex t (List.mem_of_mem_take h)
    · rcases List.mem_cons.mp h with h | h
      · subst h; exact ht
      · exact hex t (List.mem_of_mem_drop h)

theorem mergeTraces_total (newTraces : List Trace) :
    ∀ existing : List Trace, AllSeqPresent existing → AllSeqPresent newTraces →
      ∃ merged, mergeTraces existing newTraces = some merged ∧ AllSeqPresent merged := by
  induction newTraces with
  | nil => intro existing hex _; exact ⟨existing, rfl, hex⟩
  | cons t rest ih =>
    intro existing hex hnew
    obtain ⟨m, hm, hmp⟩ := mergeStep_total existing t hex (hnew t (List.mem_cons_self _ _))
    obtain ⟨m', hm', hp'⟩ := ih m hmp (fun x hx => hnew x (List.mem_cons_of_mem _ hx))
    exact ⟨m', by simp [mergeTraces, hm, hm'], hp'⟩

theorem storeChunk_wellFormed (env : Env) (fs : FS) (chunkPath : String)
    (traces : List Trace) (n : Nat) (hfs : ChunksWellFormed fs)
    (ht : AllSeqPresent traces) :
    ChunksWellFormed (storeChunk env fs chunkPath traces n).2 := by
  unfold storeChunk
  have hset : ∀ file, (∀ ts, file = ChunkFile.chunk ts → AllSeqPresent ts) →
      ChunksWellFormed (fs.setChunk chunkPath file) := by
    intro file hfile p ts hp
    unfold FS.setChunk at hp
    simp only at hp
    by_cases hpe : p = chunkPath
    · rw [if_pos hpe] at hp
      exact hfile ts hp
    · rw [if_neg hpe] at hp
      exact hfs p ts hp
  split
  · exact hfs
  · split
    · exact hfs
    · split
      · exact hfs
      · split
        · exact hset _ (fun ts h => by cases h)
        · refine hset _ (fun ts h => ?_)
          injection h with h
          rw [← h]; exact ht

theorem writeChunk_total (env : Env) (fs : FS) (chunkPath : String) (newTraces : List Trace)
    (hfs : ChunksWellFormed fs) (hnew : AllSeqPresent newTraces) :
    ∃ r, writeChunk env fs chunkPath newTraces = some r ∧ ChunksWellFormed r.2 := by
  unfold writeChunk
  cases hread : readTraces fs chunkPath with
  | none => exact ⟨_, rfl, storeChunk_wellFormed env fs chunkPath newTraces 0 hfs hnew⟩
  | some existing =>
    have hfile : fs.chunks chunkPath = ChunkFile.chunk existing := by
      unfold readTraces at hread
      split at hread
      · rename_i ts heq
        injection hread with h
        rw [heq, h]
      · cases hread
    obtain ⟨merged, hm, hmp⟩ := mergeTraces_total newTraces existing (hfs _ _ hfile) hnew
    simp only [hm]
    exact ⟨_, rfl, storeChunk_wellFormed env fs chunkPath merged _ hfs hmp⟩

theorem installMarkers_chunks (env : Env) (indexPath : String) (tars : List String) :
    ∀ (fs : FS) (c : Counters) (ev : List Event),
      (installMarkers env indexPath tars fs c ev).1.chunks = fs.chunks := by
  induction tars with
  | nil => intro fs c ev; rfl
  | cons tar rest ih =>
    intro fs c ev
    simp only [installMarkers]
    rw [ih]
    split
    · rfl
    · rfl

theorem flushChunk_total (env : Env) (indexPath : String) (st : IndexState)
    (chunkPath : String) (hfs : ChunksWellFormed st.fs)
    (hp : ∀ t ∈ st.currentTraces, Keyed t) :
    ∃ st', flushChunk env indexPath st chunkPath = some st' ∧ ChunksWellFormed st'.fs := by
  obtain ⟨r, hr, hwf⟩ := writeChunk_total env st.fs chunkPath st.currentTraces hfs
    (fun t ht => keyed_seq_present t (hp t ht))
  obtain ⟨⟨written, tracesRead⟩, fs⟩ := r
  unfold flushChunk
  rw [hr]
  simp only
  cases written with
  | false => exact ⟨_, rfl, hwf⟩
  | true =>
    refine ⟨_, rfl, ?_⟩
    intro p ts hpts
    simp only [if_true] at hpts
    rw [installMarkers_chunks] at hpts
    exact hwf p ts hpts

theorem walkTrace_total (env : Env) (indexPath : String) (st : IndexState) (t : Trace)
    (hfs : ChunksWellFormed st.fs) (hp : ∀ x ∈ st.currentTraces, Keyed x) (ht : Keyed t) :
    ∃ st', walkTrace env indexPath st t = some st' ∧ ChunksWellFormed st'.fs ∧
      ∀ x ∈ st'.currentTraces, Keyed x := by
  obtain ⟨chunkPath, hpath⟩ := keyed_chunkPath indexPath t ht
  unfold walkTrace
  rw [hpath]
  simp only
  by_cases hcond : st.currentChunkPath = none ∨ st.currentChunkPath ≠ some chunkPath
  · rw [if_pos hcond]
    cases hcur : st.currentChunkPath with
    | none =>
      refine ⟨_, rfl, hfs, ?_⟩
      intro x hx
      simp only [List.nil_append, List.mem_singleton] at hx
      rw [hx]; exact ht
    | some current =>
      obtain ⟨s, hs, hwf⟩ := flushChunk_total env indexPath st current hfs hp
      simp only [hs, Option.map_some']
      refine ⟨_, rfl, hwf, ?_⟩
      intro x hx
      simp only [List.nil_append, List.mem_singleton] at hx
      rw [hx]; exact ht
  · rw [if_neg hcond]
    refine ⟨_, rfl, hfs, ?_⟩
    intro x hx
    simp only [List.mem_append, List.mem_singleton] at hx
    rcases hx with hx | hx
    · exact hp x hx
    · rw [hx]; exact ht

theorem walkTraces_total (env : Env) (indexPath : String) (ts : List Trace) :
    ∀ st : IndexState, ChunksWellFormed st.fs → (∀ x ∈ st.currentTraces, Keyed x) →
      (∀ t ∈ ts, Keyed t) →
      ∃ st', walkTraces env indexPath st ts = some st' ∧ ChunksWellFormed st'.fs ∧
        ∀ x ∈ st'.currentTraces, Keyed x := by
  induction ts with
  | nil => intro st hfs hp _; exact ⟨st, rfl, hfs, hp⟩
  | cons t rest ih =>
    intro st hfs hp hts
    obtain ⟨st1, h1, hfs1, hp1⟩ :=
      walkTrace_total env indexPath st t hfs hp (hts t (List.mem_cons_self _ _))
    obtain ⟨st2, h2, hfs2, hp2⟩ :=
      ih st1 hfs1 hp1 (fun x hx => hts x (List.mem_cons_of_mem _ hx))
    exact ⟨st2, by unfold walkTraces; rw [h1]; exact h2, hfs2, hp2⟩

theorem readTarLoop_keyed (env : Env)
    (hparse : ∀ b t, env.ParseTrace b = Except.ok t → Keyed t) (items : List TarItem) :
    ∀ (traces : List Trace) (errs : List (String × String)), (∀ t ∈ traces, Keyed t) →
      ∀ t ∈ (readTarLoop env items traces errs).traces, Keyed t := by
  induction items with
  | nil => intro traces errs h; simpa [readTarLoop] using h
  | cons it rest ih =>
    intro traces errs h
    cases it with
    | badHeader err => simpa [readTarLoop] using h
    | entry name payload =>
      unfold readTarLoop
      cases hr : readTrace env payload with
      | error err => exact ih traces _ h
      | ok trace =>
        refine ih (traces ++ [trace]) errs ?_
        intro t ht
        rcases List.mem_append.mp ht with ht | ht
        · exact h t ht
        · rw [List.mem_singleton] at ht
          subst ht
          unfold readTrace at hr
          cases hg : env.gzipNewReader payload with
          | error e => rw [hg] at hr; cases hr
          | ok unzipped =>
            rw [hg] at hr
            exact hparse unzipped t hr

theorem indexTar_total (env : Env) (indexPath : String) (st : IndexState) (tarFile : String)
    (hparse : ∀ b t, env.ParseTrace b = Except.ok t → Keyed t)
    (hfs : ChunksWellFormed st.fs) (hp : ∀ x ∈ st.currentTraces, Keyed x) :
    ∃ st', indexTar env indexPath st tarFile = some st' ∧ ChunksWellFormed st'.fs ∧
      ∀ x ∈ st'.currentTraces, Keyed x := by
  unfold indexTar
  simp only
  split
  · exact ⟨_, rfl, hfs, hp⟩
  · split
    · exact ⟨_, rfl, hfs, hp⟩
    · rename_i items _
      split
      · exact ⟨_, rfl, hfs, hp⟩
      · obtain ⟨sorted, hsort, hkeyed⟩ := sortTraces_total (readTarFile env items).traces
          (readTarLoop_keyed env hparse items [] [] (fun _ h => by cases h))
        rw [hsort]
        simp only
        have key : ∀ (X : IndexState) (o : Option IndexState),
            walkTraces env indexPath X sorted = o → ChunksWellFormed X.fs →
            (∀ x ∈ X.currentTraces, Keyed x) →
            ∃ st', o = some st' ∧ ChunksWellFormed st'.fs ∧
              ∀ x ∈ st'.currentTraces, Keyed x := by
          intro X o hX hX1 hX2
          rw [← hX]
          exact walkTraces_total env indexPath sorted X hX1 hX2 hkeyed
        split
        · rename_i hwalk
          obtain ⟨st1, h1, _, _⟩ := key _ _ hwalk hfs hp
          cases h1
        · rename_i st1 hwalk
          obtain ⟨st2, h2, hfs2, hp2⟩ := key _ _ hwalk hfs hp
          injection h2 with h2
          subst h2
          exact ⟨_, rfl, hfs2, hp2⟩

theorem indexTars_total (env : Env) (indexPath : String)
    (hparse : ∀ b t, env.ParseTrace b = Except.ok t → Keyed t) (tars : List String) :
    ∀ st : IndexState, ChunksWellFormed st.fs → (∀ x ∈ st.currentTraces, Keyed x) →
      ∃ st', indexTars env indexPath st tars = some st' ∧ ChunksWellFormed st'.fs ∧
        ∀ x ∈ st'.currentTraces, Keyed x := by
  induction tars with
  | nil => intro st hfs hp; exact ⟨st, rfl, hfs, hp⟩
  | cons tar rest ih =>
    intro st hfs hp
    obtain ⟨st1, h1, hfs1, hp1⟩ := indexTar_total env indexPath st tar hparse hfs hp
    obtain ⟨st2, h2, hfs2, hp2⟩ := ih st1 hfs1 hp1
    exact ⟨st2, by unfold indexTars; rw [h1]; exact h2, hfs2, hp2⟩

/-- A run of `IndexTraces` ends without a panic when every decoded trace has its
four key fields, the signature among them, and every readable chunk holds
traces with sequence numbers. -/
theorem IndexTraces_total (env : Env) (fs : FS) (tarsPath indexPath : String)
    (hparse : ∀ b t, env.ParseTrace b = Except.ok t → Keyed t)
    (hfs : ChunksWellFormed fs) :
    ∃ st, IndexTraces env fs tarsPath indexPath = some st := by
  unfold IndexTraces
  cases hglob : env.glob (filepathJoin [tarsPath, "*.tar"]) with
  | none => exact ⟨_, rfl⟩
  | some tarFiles =>
    simp only
    obtain ⟨st1, hrun, hfs1, hp1⟩ := indexTars_total env indexPath hparse
      (sortStrings (scanTars indexPath fs tarFiles {} []).2)
      ⟨fs, (scanTars indexPath fs tarFiles {} []).1, none, [], [], []⟩ hfs
      (fun _ h => by cases h)
    obtain ⟨hpend, _, _⟩ := indexTars_spec env indexPath _ _ st1
      (fun _ h => by cases h) (fun _ _ _ h => by cases h) hrun
    rw [hrun]
    simp only
    by_cases hlen : st1.currentTraces.length > 0
    · rw [if_pos hlen]
      cases hl : st1.currentTraces with
      | nil => rw [hl] at hlen; simp at hlen
      | cons x xs =>
        obtain ⟨p, hp, _⟩ := hpend x (by rw [hl]; exact List.mem_cons_self _ _)
        rw [hp]
        simp only
        obtain ⟨st2, h2, _⟩ := flushChunk_total env indexPath st1 p hfs1 hp1
        exact ⟨st2, h2⟩
    · rw [if_neg hlen]
      exact ⟨_, rfl⟩

/-- C15 (defect in the code). The archive holds two traces of one node that have
no anonymization signature. Both decode, and `indexedChunkPath` gives both
the chunk path of the `unanonymized` signature; but `Less` dereferences the
signature of two traces with the same node id, so `sort.Sort` panics and the
run ends before any `writeChunk` call: neither trace is written. -/
theorem IndexTraces_panics_on_unsigned_traces :
    archiveTraces unsignedEnv "/tars/a.tar" = [unsignedAt 1 0, unsignedAt 2 1] ∧
    indexedChunkPath "/idx" (unsignedAt 1 0) = some "/idx/traces/node-unanonymized/0-0" ∧
    indexedChunkPath "/idx" (unsignedAt 2 1) = some "/idx/traces/node-unanonymized/0-0" ∧
    BySequenceNumber.Less (unsignedAt 2 1) (unsignedAt 1 0) = none ∧
    BySequenceNumber.Less (unsignedAt 1 0) (unsignedAt 2 1) = none ∧
    sortTraces [unsignedAt 1 0, unsignedAt 2 1] = none ∧
    (IndexTraces unsignedEnv emptyFS "/tars" "/idx").isNone = true := by
  decide

end Bismark
